import Mathlib

/-!
Verification development for the xunitmerge repository
(source file: src/xunitmerge/xmerge.py).

We shallowly embed the XML element model and the functions of xmerge.py:
`is_test_state`, `is_test_skipped`, `test_get_name`,
`test_suite_update_attribs`, `merge_trees`, the CDATA-aware serializer
installed by `patch_etree_cname`, and the orchestrator `merge_xunit`.

Modelling conventions:
* XML elements (`xml.etree.ElementTree.Element`) become the inductive
  `Elem` below: a tag, an insertion-ordered attribute list (Python dicts
  preserve insertion order and have unique keys), optional text, and an
  ordered child list.  Element `tail` text plays no role in any merged tree
  and is omitted.
* Python `float` values become `ℚ`; `float(str)` becomes the decimal/
  exponent parser `parseTime` (infinities, NaN and underscore separators
  are not modelled), and `str(float)` becomes the exact decimal renderer
  `floatStr`.
* stdout prints (`print(...)`) become an explicit warning trace.
* Fallible operations (`dict[...]` lookups that can raise `KeyError`,
  `float(...)` that can raise `ValueError`) return `Option`.
-/

inductive Elem : Type where
  | mk : String → List (String × String) → Option String → List Elem → Elem

instance : Inhabited Elem := ⟨Elem.mk "" [] none []⟩

mutual
def elemDecEq : (a b : Elem) → Decidable (a = b)
  | .mk t1 a1 x1 c1, .mk t2 a2 x2 c2 =>
    haveI : Decidable (c1 = c2) := elemListDecEq c1 c2
    decidable_of_iff (t1 = t2 ∧ a1 = a2 ∧ x1 = x2 ∧ c1 = c2) (by simp)
def elemListDecEq : (a b : List Elem) → Decidable (a = b)
  | [], [] => isTrue rfl
  | [], _ :: _ => isFalse (by simp)
  | _ :: _, [] => isFalse (by simp)
  | a :: as, b :: bs =>
    haveI : Decidable (a = b) := elemDecEq a b
    haveI : Decidable (as = bs) := elemListDecEq as bs
    decidable_of_iff (a = b ∧ as = bs) (by simp)
end

instance : DecidableEq Elem := elemDecEq

def Elem.tag : Elem → String
  | .mk t _ _ _ => t

def Elem.attrib : Elem → List (String × String)
  | .mk _ a _ _ => a

def Elem.text : Elem → Option String
  | .mk _ _ x _ => x

def Elem.children : Elem → List Elem
  | .mk _ _ _ cs => cs

-- Document-order (pre-order) traversal of an element and all its
-- descendants; this is the order of Python's `Element.iter()`.
mutual
def Elem.iterAll : Elem → List Elem
  | .mk t a x cs => .mk t a x cs :: Elem.iterAllList cs
def Elem.iterAllList : List Elem → List Elem
  | [] => []
  | c :: cs => c.iterAll ++ Elem.iterAllList cs
end

/-- `Element.iter(tag)`: all elements of the subtree (the element itself
included) whose tag is `tag`, in document order. -/
def Elem.iter (e : Elem) (t : String) : List Elem :=
  e.iterAll.filter (fun x => decide (x.tag = t))

/-- `is_test_state` (xmerge.py lines 79-82): whether the subtree of
`xml_element` contains an element tagged `state` (the loop returns `True`
on the first element yielded by `iter(state)`). -/
def is_test_state (xml_element : Elem) (state : String) : Bool :=
  !(xml_element.iter state).isEmpty

/-- `is_test_skipped` (xmerge.py line 85). -/
def is_test_skipped (xml_element : Elem) : Bool :=
  is_test_state xml_element "skipped"

/-- First-match association-list lookup, the model of a Python dict read. -/
def attrGet (l : List (String × String)) (k : String) : Option String :=
  match l with
  | [] => none
  | p :: rest => if p.1 = k then some p.2 else attrGet rest k

/-- `test_get_name` (xmerge.py line 89): `xml_element.attrib['name']`;
a missing key raises `KeyError`, modelled by `none`. -/
def test_get_name (xml_element : Elem) : Option String :=
  attrGet xml_element.attrib "name"

/-! ### Python float parsing and rendering -/

def digitsToNat (cs : List Char) : ℕ :=
  cs.foldl (fun a c => a * 10 + (c.toNat - 48)) 0

def allDigits (cs : List Char) : Bool :=
  cs.all (fun c => c.isDigit)

/-- Split a character list at every occurrence of `sep`. -/
def splitOnChar (sep : Char) : List Char → List (List Char)
  | [] => [[]]
  | c :: rest =>
    if c = sep then [] :: splitOnChar sep rest
    else
      match splitOnChar sep rest with
      | [] => [[c]]
      | g :: gs => (c :: g) :: gs

/-- Addition on `ℚ` through `Rat.divInt`; definitionally evaluable,
and equal to `+` (see `qAdd_eq`). -/
def qAdd (a b : ℚ) : ℚ :=
  Rat.divInt (a.num * b.den + b.num * a.den) ((a.den : ℤ) * (b.den : ℤ))

theorem qAdd_eq (a b : ℚ) : qAdd a b = a + b := by
  conv_rhs => rw [← Rat.num_divInt_den a, ← Rat.num_divInt_den b]
  rw [Rat.divInt_add_divInt _ _
    (Int.natCast_ne_zero.mpr a.den_nz) (Int.natCast_ne_zero.mpr b.den_nz)]
  rfl

/-- Unsigned decimal literal: digits with an optional single point, at
least one digit overall (Python accepts "1.", ".5", "3").  Returns the
scaled value and fractional scale: the literal denotes `n / 10 ^ f`. -/
def parseUnsignedDec (cs : List Char) : Option (ℕ × ℕ) :=
  match splitOnChar '.' cs with
  | [i] =>
    if i ≠ [] ∧ allDigits i then some (digitsToNat i, 0) else none
  | [i, f] =>
    if i ++ f ≠ [] ∧ allDigits i ∧ allDigits f then
      some (digitsToNat (i ++ f), f.length)
    else none
  | _ => none

/-- Signed decimal mantissa: sign flag plus the unsigned parts. -/
def parseSignedDec (cs : List Char) : Option (Bool × ℕ × ℕ) :=
  match cs with
  | '+' :: rest => (parseUnsignedDec rest).map (fun p => (false, p))
  | '-' :: rest => (parseUnsignedDec rest).map (fun p => (true, p))
  | rest => (parseUnsignedDec rest).map (fun p => (false, p))

def parseSignedInt (cs : List Char) : Option ℤ :=
  match cs with
  | '+' :: rest => if rest ≠ [] ∧ allDigits rest then some (digitsToNat rest) else none
  | '-' :: rest => if rest ≠ [] ∧ allDigits rest then some (-(digitsToNat rest : ℤ)) else none
  | rest => if rest ≠ [] ∧ allDigits rest then some (digitsToNat rest) else none

def isPySpace (c : Char) : Bool :=
  c = ' ' ∨ c = '\t' ∨ c = '\n' ∨ c = '\r'

def trimChars (cs : List Char) : List Char :=
  ((cs.dropWhile isPySpace).reverse.dropWhile isPySpace).reverse

/-- The rational `(-1)^neg * (n / 10^f) * 10^e`, assembled with a single
`Rat.divInt`. -/
def ratOfParts (neg : Bool) (n f : ℕ) (e : ℤ) : ℚ :=
  let num : ℤ := (if neg then -(n : ℤ) else (n : ℤ)) * ((10 ^ e.toNat : ℕ) : ℤ)
  Rat.divInt num (((10 ^ f : ℕ) : ℤ) * ((10 ^ (-e).toNat : ℕ) : ℤ))

/-- Model of Python's `float(str)` into `ℚ`: optional surrounding
whitespace, optional sign, decimal mantissa, optional `e`/`E` exponent.
(`inf`, `nan` and underscore digit separators are not modelled.)
A string `float` cannot parse is `none` (Python raises `ValueError`). -/
def parseTime (s : String) : Option ℚ :=
  let cs := (trimChars s.data).map (fun c => if c = 'E' then 'e' else c)
  match splitOnChar 'e' cs with
  | [m] => (parseSignedDec m).map (fun p => ratOfParts p.1 p.2.1 p.2.2 0)
  | [m, e] => do
    let mp ← parseSignedDec m
    let ep ← parseSignedInt e
    pure (ratOfParts mp.1 mp.2.1 mp.2.2 ep)
  | _ => none

/-- Model of Python's `str(float)` for the exactly-decimal rationals the
merge produces (sums of parsed decimal `time` attributes): minimal-length
decimal rendering, always with at least one fractional digit, as in
`str(3.0) = "3.0"` and `str(0.5) = "0.5"`.  (Scientific notation for very
small/large magnitudes is not modelled; a rational with no finite decimal
expansion — impossible for actual float values — falls back to a
fraction rendering.) -/
def floatStr (q : ℚ) : String :=
  let sign := if q.num < 0 then "-" else ""
  let n := q.num.natAbs
  let d := q.den
  match (List.range 40).find? (fun k => (n * 10 ^ k) % d == 0) with
  | some k =>
    let m := n * 10 ^ k / d
    if k = 0 then sign ++ Nat.repr m ++ ".0"
    else
      let ds := (Nat.repr m).data
      let padded := List.replicate (k + 1 - ds.length) '0' ++ ds
      sign ++ String.mk (padded.take (padded.length - k)) ++ "." ++
        String.mk (padded.drop (padded.length - k))
  | none => sign ++ Nat.repr n ++ "/" ++ Nat.repr d

/-! ### Attribute aggregator (`test_suite_update_attribs`) -/

/-- The `suite_state` dict of `test_suite_update_attribs`
(xmerge.py lines 94-100). -/
structure SuiteState where
  tests : ℕ
  skipped : ℕ
  failures : ℕ
  errors : ℕ
  time : ℚ
deriving DecidableEq, Repr

/-- One iteration of the `for test in test_suite.iter('testcase')` loop
(xmerge.py lines 102-112).  `none` models the `ValueError` Python's
`float` raises on an unparsable `time` attribute. -/
def scanCase (s : SuiteState) (test : Elem) : Option SuiteState := do
  let t ← parseTime ((attrGet test.attrib "time").getD "0")
  let s := { s with time := qAdd s.time t }
  if is_test_state test "skipped" then
    pure { s with skipped := s.skipped + 1 }
  else
    let s := { s with tests := s.tests + 1 }
    if is_test_state test "failure" then
      pure { s with failures := s.failures + 1 }
    else if is_test_state test "error" then
      pure { s with errors := s.errors + 1 }
    else
      pure s

/-- The fully folded `suite_state` of `test_suite_update_attribs`. -/
def computeSuiteState (test_suite : Elem) : Option SuiteState :=
  (test_suite.iter "testcase").foldlM scanCase ⟨0, 0, 0, 0, 0⟩

/-- Python dict write `d[k] = v`: replace in place when the key exists,
append otherwise. -/
def setAttr (l : List (String × String)) (k v : String) : List (String × String) :=
  if l.any (fun p => decide (p.1 = k)) then
    l.map (fun p => if p.1 = k then (k, v) else p)
  else l ++ [(k, v)]

/-- The five `test_suite.set(key, six.text_type(suite_state[key]))` writes
(xmerge.py lines 114-115), in the dict's insertion order. -/
def setSuiteAttribs (l : List (String × String)) (s : SuiteState) : List (String × String) :=
  setAttr (setAttr (setAttr (setAttr (setAttr l
    "tests" (Nat.repr s.tests))
    "skipped" (Nat.repr s.skipped))
    "failures" (Nat.repr s.failures))
    "errors" (Nat.repr s.errors))
    "time" (floatStr s.time)

/-- `test_suite_update_attribs` (xmerge.py lines 93-117). -/
def test_suite_update_attribs (test_suite : Elem) : Option Elem := do
  let s ← computeSuiteState test_suite
  pure (Elem.mk test_suite.tag (setSuiteAttribs test_suite.attrib s)
    test_suite.text test_suite.children)

/-! ### Merge engine (`merge_trees`) -/

/-- The mutable state of `merge_trees`: the accumulator root's child list,
the `skipped_tests` dict (insertion-ordered, unique keys), the
`completed_tests` list, and the trace of `print` warnings. -/
structure MergeState where
  children : List Elem
  skipped_tests : List (String × Elem)
  completed_tests : List String
  warnings : List String
deriving DecidableEq

/-- Python dict key-membership test. -/
def hasKey (l : List (String × Elem)) (k : String) : Bool :=
  l.any (fun p => decide (p.1 = k))

/-- Python dict `del l[k]` (keys are unique by construction, so removing
every binding of `k` removes exactly one). -/
def delKey (l : List (String × Elem)) (k : String) : List (String × Elem) :=
  l.filter (fun p => decide (p.1 ≠ k))

/-- One iteration of the first `merge_trees` loop (xmerge.py lines
139-150): `findall("testcase")` only visits direct children tagged
`testcase`, skipped ones are removed from the accumulator and recorded in
`skipped_tests` (first occurrence per name wins), completed ones stay and
their name is recorded in `completed_tests`; children with another tag
are left in place untouched. -/
def step1 (st : MergeState) (test : Elem) : Option MergeState :=
  if test.tag = "testcase" then
    match test_get_name test with
    | none => none
    | some test_name =>
      if is_test_skipped test then
        if hasKey st.skipped_tests test_name then some st
        else some { st with skipped_tests := st.skipped_tests ++ [(test_name, test)] }
      else
        let st1 := { st with children := st.children ++ [test] }
        if test_name ∈ st1.completed_tests then some st1
        else some { st1 with completed_tests := st1.completed_tests ++ [test_name] }
  else some { st with children := st.children ++ [test] }

/-- One iteration of the inner `for test in root` loop over a later
tree's direct children (xmerge.py lines 153-172). -/
def step2 (st : MergeState) (test : Elem) : Option MergeState :=
  match test_get_name test with
  | none => none
  | some test_name =>
    if is_test_skipped test then
      if test_name ∉ st.completed_tests ∧ ¬hasKey st.skipped_tests test_name then
        some { st with skipped_tests := st.skipped_tests ++ [(test_name, test)] }
      else some st
    else
      let st1 :=
        if hasKey st.skipped_tests test_name then
          let std := { st with skipped_tests := delKey st.skipped_tests test_name }
          if hasKey std.skipped_tests test_name then
            { std with warnings := std.warnings ++ ["not removed?"] }
          else std
        else st
      let st2 :=
        if test_name ∈ st1.completed_tests then
          { st1 with warnings := st1.warnings ++ [test_name] }
        else
          { st1 with completed_tests := st1.completed_tests ++ [test_name] }
      some { st2 with children := st2.children ++ [test] }

/-- Step 3 of the merge (xmerge.py lines 174-177): materialize every
surviving skip, in the skip table's insertion order, whose name was never
completed. -/
def materializedSkips (st : MergeState) : List Elem :=
  (st.skipped_tests.filter (fun p => decide (p.1 ∉ st.completed_tests))).map (fun p => p.2)

/-- `merge_trees` (xmerge.py lines 120-185).  The two nested loops over
the later trees and their direct children (`for tree in trees[1:]: for
test in root:`) are one left-to-right pass over the concatenation of the
later trees' child lists, modelled as a single fold over that
concatenation.  The result pairs the merged tree with the trace of
warning lines printed; `none` models an uncaught exception (`IndexError`
on an empty argument list, `KeyError` on a child with no `name`
attribute, `ValueError` on an unparsable `time`). -/
def merge_trees (trees : List Elem) : Option (Elem × List String) :=
  match trees with
  | [] => none
  | first_tree :: rest =>
    if rest.isEmpty then some (first_tree, [])
    else do
      let st1 ← first_tree.children.foldlM step1 ⟨[], [], [], []⟩
      let st2 ← (rest.flatMap Elem.children).foldlM step2 st1
      let root := Elem.mk first_tree.tag first_tree.attrib first_tree.text
        (st2.children ++ materializedSkips st2)
      let merged ← test_suite_update_attribs root
      pure (merged, st2.warnings)

/-! ### CDATA-aware serializer (`patch_etree_cname`) -/

/-- Fuel-driven leftmost-first substring replacement (the semantics of
Python's `str.replace` for a non-empty pattern). -/
def replaceAux (pat rep : List Char) : ℕ → List Char → List Char
  | 0, s => s
  | _ + 1, [] => []
  | fuel + 1, c :: rest =>
    if pat.isPrefixOf (c :: rest) then
      rep ++ replaceAux pat rep fuel (List.drop (pat.length - 1) rest)
    else c :: replaceAux pat rep fuel rest

def pyReplace (s pat rep : String) : String :=
  String.mk (replaceAux pat.data rep.data s.data.length s.data)

def dquoteC : Char := Char.ofNat 34
def squoteC : Char := Char.ofNat 39
def dquoteS : String := String.mk [dquoteC]
def squoteS : String := String.mk [squoteC]

/-- `xml.sax.saxutils.escape` with the entity table `quoteattr` passes
(`&`, `>`, `<` first, then the newline/return/tab entities in the
dict's insertion order). -/
def sax_escape (s : String) : String :=
  pyReplace (pyReplace (pyReplace (pyReplace (pyReplace (pyReplace s
    "&" "&amp;") ">" "&gt;") "<" "&lt;")
    "\n" "&#10;") "\r" "&#13;") "\t" "&#9;"

/-- `xml.sax.saxutils.quoteattr`. -/
def quoteattr (s : String) : String :=
  let data := sax_escape s
  if data.data.contains dquoteC then
    if data.data.contains squoteC then
      dquoteS ++ pyReplace data dquoteS "&quot;" ++ dquoteS
    else squoteS ++ data ++ squoteS
  else dquoteS ++ data ++ dquoteS

/-- Lexicographic (code-point) order on character lists, Python's string
comparison. -/
def charListLe : List Char → List Char → Bool
  | [], _ => true
  | _ :: _, [] => false
  | a :: as, b :: bs =>
    if a < b then true else if b < a then false else charListLe as bs

def strLe (a b : String) : Bool := charListLe a.data b.data

/-- Stable insertion of an attribute pair into a key-sorted list. -/
def insertAttr (p : String × String) : List (String × String) → List (String × String)
  | [] => [p]
  | q :: qs => if strLe p.1 q.1 then p :: q :: qs else q :: insertAttr p qs

/-- Python's `sorted(elem.attrib.items())`: since dict keys are unique,
tuple order is lexicographic order on the keys. -/
def sortAttrs (l : List (String × String)) : List (String × String) :=
  l.foldr insertAttr []

/-- `'{}'.format(x)` where `x` may be Python `None`. -/
def pyStr : Option String → String
  | none => "None"
  | some s => s

/-- `CNAME_TAGS` (xmerge.py line 9). -/
def CNAME_TAGS : List String := ["system-out", "skipped", "error", "failure"]

/-- The `' '.join(...)`-built attribute string of the patched serializer
(xmerge.py lines 59-63). -/
def cnameAttrsStr (e : Elem) : String :=
  String.intercalate " " ((sortAttrs e.attrib).map (fun p => p.1 ++ "=" ++ quoteattr p.2))

/-- The CNAME branch of the patched `_serialize_xml` (xmerge.py lines
58-68): `TAG_PATTERN.format(tag=..., attrs=..., text=CNAME_PATTERN.format(elem.text))`.
The element's children are never visited. -/
def serializeCName (e : Elem) : String :=
  let attrs := cnameAttrsStr e
  let attrs := if attrs = "" then "" else " " ++ attrs
  "<" ++ e.tag ++ attrs ++ ">" ++ "<![CDATA[" ++ pyStr e.text ++ "]]>" ++
    "</" ++ e.tag ++ ">"

/-- `xml.etree.ElementTree._escape_cdata` (text content escaping of the
default serializer; an external collaborator of xmerge.py). -/
def et_escape_cdata (s : String) : String :=
  pyReplace (pyReplace (pyReplace s "&" "&amp;") "<" "&lt;") ">" "&gt;"

/-- `xml.etree.ElementTree._escape_attrib`. -/
def et_escape_attrib (s : String) : String :=
  pyReplace (pyReplace (pyReplace (pyReplace (pyReplace (pyReplace (pyReplace s
    "&" "&amp;") "<" "&lt;") ">" "&gt;") dquoteS "&quot;")
    "\r" "&#13;") "\n" "&#10;") "\t" "&#09;"

def boolTextNonEmpty : Option String → Bool
  | none => false
  | some s => !(s = "")

/-- ElementTree's default serialization of one element, given the
already-serialized children (insertion-ordered escaped attributes,
escaped text, and a self-closing tag for empty elements). -/
def serializeDefault (t : String) (a : List (String × String)) (x : Option String)
    (cs : List Elem) (childrenOut : String) : String :=
  let attrs := String.join (a.map (fun p =>
    " " ++ p.1 ++ "=" ++ dquoteS ++ et_escape_attrib p.2 ++ dquoteS))
  if boolTextNonEmpty x ∨ !cs.isEmpty then
    "<" ++ t ++ attrs ++ ">" ++
      (match x with | some s => et_escape_cdata s | none => "") ++
      childrenOut ++ "</" ++ t ++ ">"
  else "<" ++ t ++ attrs ++ " />"

-- The patched `_serialize_xml` installed by `patch_etree_cname`: elements
-- tagged in `CNAME_TAGS` use the CDATA branch above; every other element
-- uses ElementTree's default path, each child recursively serialized
-- through the patched function again.
mutual
def serializeElem : Elem → String
  | .mk t a x cs =>
    if t ∈ CNAME_TAGS then serializeCName (.mk t a x cs)
    else serializeDefault t a x cs (serializeElemList cs)
def serializeElemList : List Elem → String
  | [] => ""
  | c :: cs => serializeElem c ++ serializeElemList cs
end

theorem serializeElem_unfold (t : String) (a : List (String × String))
    (x : Option String) (cs : List Elem) :
    serializeElem (Elem.mk t a x cs) =
      if t ∈ CNAME_TAGS then serializeCName (Elem.mk t a x cs)
      else serializeDefault t a x cs (serializeElemList cs) := rfl

/-! ### The patch context manager and orchestrator (`merge_xunit`) -/

/-- Which serializer implementation the shared `ElementTree` module
currently holds in `_serialize_xml` / `_serialize['xml']`. -/
inductive SerializeImpl : Type where
  | default : SerializeImpl
  | patched : SerializeImpl
deriving DecidableEq, Repr

/-- The shared mutable state of the `xml.etree.ElementTree` module that
`patch_etree_cname` mutates. -/
structure EtreeModule where
  serialize_xml : SerializeImpl
deriving DecidableEq, Repr

/-- `merge_xunit` (xmerge.py lines 188-207), with parsing treated as
external (the already-parsed trees are the input) and no callback.
`writeFails` models whether `merged.write(output, ...)` raises, e.g.
because the output stream is closed or the disk is full.

The body of `patch_etree_cname` (lines 54-76) sets
`etree._serialize_xml` to the patched function, yields, and restores the
original *after* the yield; the generator-based context manager has no
`try/finally`, so when the `with` body raises, the restore statement
after `yield` is never executed and the module stays patched. -/
def merge_xunit (trees : List Elem) (writeFails : Bool) (M : EtreeModule) :
    Except String (Option String) × EtreeModule :=
  match merge_trees trees with
  | none => (.error "merge failed", M)
  | some (merged, _) =>
    let original := M.serialize_xml
    let M1 : EtreeModule := { serialize_xml := .patched }
    if writeFails then (.error "write failed", M1)
    else (.ok (some ("<?xml version='1.0' encoding='utf-8'?>\n" ++ serializeElem merged)),
      { M1 with serialize_xml := original })

/-! ### Utility lemmas -/

theorem attrGet_append (l1 l2 : List (String × String)) (k : String) :
    attrGet (l1 ++ l2) k =
      match attrGet l1 k with
      | some v => some v
      | none => attrGet l2 k := by
  induction l1 with
  | nil => simp [attrGet]
  | cons p rest ih =>
    by_cases hp : p.1 = k
    · simp [attrGet, hp]
    · simp [attrGet, hp, ih]

theorem attrGet_eq_none_of_not_any (l : List (String × String)) (k : String)
    (h : l.any (fun p => decide (p.1 = k)) = false) : attrGet l k = none := by
  induction l with
  | nil => rfl
  | cons p rest ih =>
    simp only [List.any_cons, Bool.or_eq_false_iff, decide_eq_false_iff_not] at h
    simp [attrGet, h.1, ih h.2]

theorem attrGet_setAttr_same (l : List (String × String)) (k v : String) :
    attrGet (setAttr l k v) k = some v := by
  unfold setAttr
  split
  · rename_i h
    induction l with
    | nil => simp at h
    | cons p rest ih =>
      by_cases hp : p.1 = k
      · simp [attrGet, hp]
      · simp only [List.any_cons, decide_eq_true_eq, hp, false_or] at h
        simpa [attrGet, hp] using ih h
  · rename_i h
    rw [Bool.not_eq_true] at h
    rw [attrGet_append, attrGet_eq_none_of_not_any l k h]
    simp [attrGet]

theorem attrGet_map_setfn (l : List (String × String)) (k v k' : String)
    (hk : k' ≠ k) :
    attrGet (l.map (fun p => if p.1 = k then (k, v) else p)) k' = attrGet l k' := by
  induction l with
  | nil => rfl
  | cons p rest ih =>
    by_cases hp : p.1 = k
    · have h1 : ¬k = k' := fun hh => hk hh.symm
      have h2 : ¬p.1 = k' := by rw [hp]; exact h1
      simp [attrGet, hp, h1, h2, ih]
    · by_cases hp' : p.1 = k'
      · simp [attrGet, hp, hp', hk, Ne.symm hk]
      · simp [attrGet, hp, hp', ih]

theorem attrGet_setAttr_other (l : List (String × String)) (k v k' : String)
    (hk : k' ≠ k) : attrGet (setAttr l k v) k' = attrGet l k' := by
  unfold setAttr
  split
  · exact attrGet_map_setfn l k v k' hk
  · rw [attrGet_append]
    cases hl : attrGet l k'
    · simp [attrGet, Ne.symm hk]
    · rfl

theorem hasKey_iff (l : List (String × Elem)) (k : String) :
    hasKey l k = true ↔ ∃ p ∈ l, p.1 = k := by
  simp [hasKey]

theorem hasKey_eq_false_iff (l : List (String × Elem)) (k : String) :
    hasKey l k = false ↔ ∀ p ∈ l, p.1 ≠ k := by
  simp [hasKey]

theorem mem_delKey (l : List (String × Elem)) (k : String) (p : String × Elem) :
    p ∈ delKey l k ↔ p ∈ l ∧ p.1 ≠ k := by
  simp [delKey]

theorem hasKey_delKey_self (l : List (String × Elem)) (k : String) :
    hasKey (delKey l k) k = false := by
  rw [hasKey_eq_false_iff]
  intro p hp
  exact ((mem_delKey l k p).mp hp).2

theorem delKey_eq_of_not_hasKey (l : List (String × Elem)) (k : String)
    (h : hasKey l k = false) : delKey l k = l := by
  rw [hasKey_eq_false_iff] at h
  exact List.filter_eq_self.mpr (fun p hp => by simpa using h p hp)

theorem hasKey_append_single (l : List (String × Elem)) (n : String) (e : Elem)
    (k : String) :
    hasKey (l ++ [(n, e)]) k = (hasKey l k || decide (n = k)) := by
  simp [hasKey, List.any_append]

theorem countP_key_eq_one (l : List (String × Elem)) (k : String)
    (hnd : (l.map Prod.fst).Nodup) (hk : hasKey l k = true) :
    l.countP (fun p => decide (p.1 = k)) = 1 := by
  induction l with
  | nil => simp [hasKey] at hk
  | cons p rest ih =>
    simp only [List.map_cons, List.nodup_cons] at hnd
    by_cases hp : p.1 = k
    · rw [List.countP_cons_of_pos _ _ (by simpa using hp)]
      have hcount : rest.countP (fun q => decide (q.1 = k)) = 0 := by
        rw [List.countP_eq_zero]
        intro q hq
        simp only [decide_eq_true_eq]
        intro hqk
        exact hnd.1 (by rw [hp, ← hqk]; exact List.mem_map_of_mem Prod.fst hq)
      omega
    · rw [List.countP_cons_of_neg _ _ (by simpa using hp)]
      apply ih hnd.2
      rcases (hasKey_iff _ _).mp hk with ⟨q, hq, hqk⟩
      rcases List.mem_cons.mp hq with h | h
      · exact absurd (h ▸ hqk) hp
      · exact (hasKey_iff _ _).mpr ⟨q, h, hqk⟩


theorem hasKey_delKey_other (l : List (String × Elem)) (m n : String)
    (hne : n ≠ m) : hasKey (delKey l m) n = hasKey l n := by
  cases h : hasKey l n
  · rw [hasKey_eq_false_iff] at h ⊢
    intro p hp
    exact h p ((mem_delKey l m p).mp hp).1
  · rcases (hasKey_iff l n).mp h with ⟨p, hp, hpn⟩
    exact (hasKey_iff _ _).mpr ⟨p, (mem_delKey l m p).mpr ⟨hp, by rw [hpn]; exact hne⟩, hpn⟩

theorem keys_delKey_sublist (l : List (String × Elem)) (m : String) :
    ((delKey l m).map Prod.fst).Sublist (l.map Prod.fst) :=
  (List.filter_sublist l).map Prod.fst

/-! ### Characterizations of the merge loop steps -/

theorem step1_nontc (st : MergeState) (c : Elem) (ht : c.tag ≠ "testcase") :
    step1 st c = some { st with children := st.children ++ [c] } := by
  simp [step1, ht]

theorem step1_tc_skip (st : MergeState) (c : Elem) (n : String)
    (ht : c.tag = "testcase") (hn : test_get_name c = some n)
    (hs : is_test_skipped c = true) :
    step1 st c = some (if hasKey st.skipped_tests n = true then st
      else { st with skipped_tests := st.skipped_tests ++ [(n, c)] }) := by
  by_cases hk : hasKey st.skipped_tests n = true
  · simp [step1, ht, hn, hs, hk]
  · simp [step1, ht, hn, hs, hk]

theorem step1_tc_comp (st : MergeState) (c : Elem) (n : String)
    (ht : c.tag = "testcase") (hn : test_get_name c = some n)
    (hs : is_test_skipped c = false) :
    step1 st c = some
      { children := st.children ++ [c]
        skipped_tests := st.skipped_tests
        completed_tests := (if n ∈ st.completed_tests then st.completed_tests
          else st.completed_tests ++ [n])
        warnings := st.warnings } := by
  by_cases hm : n ∈ st.completed_tests
  · simp [step1, ht, hn, hs, hm]
  · simp [step1, ht, hn, hs, hm]

theorem step2_skip (st : MergeState) (c : Elem) (n : String)
    (hn : test_get_name c = some n) (hs : is_test_skipped c = true) :
    step2 st c = some (if n ∉ st.completed_tests ∧ hasKey st.skipped_tests n = false
      then { st with skipped_tests := st.skipped_tests ++ [(n, c)] } else st) := by
  by_cases hm : n ∈ st.completed_tests
  · simp [step2, hn, hs, hm]
  · by_cases hk : hasKey st.skipped_tests n = true
    · simp [step2, hn, hs, hm, hk]
    · simp only [Bool.not_eq_true] at hk
      simp [step2, hn, hs, hm, hk]

theorem step2_comp (st : MergeState) (c : Elem) (n : String)
    (hn : test_get_name c = some n) (hs : is_test_skipped c = false) :
    step2 st c = some
      { children := st.children ++ [c]
        skipped_tests := delKey st.skipped_tests n
        completed_tests := (if n ∈ st.completed_tests then st.completed_tests
          else st.completed_tests ++ [n])
        warnings := (if n ∈ st.completed_tests then st.warnings ++ [n]
          else st.warnings) } := by
  by_cases hk : hasKey st.skipped_tests n = true
  · by_cases hm : n ∈ st.completed_tests
    · simp [step2, hn, hs, hk, hm, hasKey_delKey_self]
    · simp [step2, hn, hs, hk, hm, hasKey_delKey_self]
  · simp only [Bool.not_eq_true] at hk
    have hd := delKey_eq_of_not_hasKey st.skipped_tests n hk
    by_cases hm : n ∈ st.completed_tests
    · simp [step2, hn, hs, hk, hm, hd]
    · simp [step2, hn, hs, hk, hm, hd]

theorem step2_none (st : MergeState) (c : Elem)
    (hn : test_get_name c = none) : step2 st c = none := by
  simp [step2, hn]

theorem step1_tc_none (st : MergeState) (c : Elem)
    (ht : c.tag = "testcase") (hn : test_get_name c = none) :
    step1 st c = none := by
  simp [step1, ht, hn]

theorem step1_cases (st mid : MergeState) (c : Elem) (h : step1 st c = some mid) :
    (c.tag ≠ "testcase" ∧ mid = { st with children := st.children ++ [c] }) ∨
    (∃ n, c.tag = "testcase" ∧ test_get_name c = some n ∧ is_test_skipped c = true ∧
      mid = (if hasKey st.skipped_tests n = true then st
        else { st with skipped_tests := st.skipped_tests ++ [(n, c)] })) ∨
    (∃ n, c.tag = "testcase" ∧ test_get_name c = some n ∧ is_test_skipped c = false ∧
      mid = { children := st.children ++ [c]
              skipped_tests := st.skipped_tests
              completed_tests := (if n ∈ st.completed_tests then st.completed_tests
                else st.completed_tests ++ [n])
              warnings := st.warnings }) := by
  by_cases ht : c.tag = "testcase"
  · cases hn : test_get_name c with
    | none => rw [step1_tc_none st c ht hn] at h; exact absurd h (by simp)
    | some n =>
      cases hs : is_test_skipped c with
      | true =>
        rw [step1_tc_skip st c n ht hn hs] at h
        exact Or.inr (Or.inl ⟨n, ht, rfl, rfl, ((Option.some.injEq _ _).mp h).symm⟩)
      | false =>
        rw [step1_tc_comp st c n ht hn hs] at h
        exact Or.inr (Or.inr ⟨n, ht, rfl, rfl, ((Option.some.injEq _ _).mp h).symm⟩)
  · rw [step1_nontc st c ht] at h
    exact Or.inl ⟨ht, ((Option.some.injEq _ _).mp h).symm⟩

theorem step2_cases (st mid : MergeState) (c : Elem) (h : step2 st c = some mid) :
    (∃ n, test_get_name c = some n ∧ is_test_skipped c = true ∧
      mid = (if n ∉ st.completed_tests ∧ hasKey st.skipped_tests n = false
        then { st with skipped_tests := st.skipped_tests ++ [(n, c)] } else st)) ∨
    (∃ n, test_get_name c = some n ∧ is_test_skipped c = false ∧
      mid = { children := st.children ++ [c]
              skipped_tests := delKey st.skipped_tests n
              completed_tests := (if n ∈ st.completed_tests then st.completed_tests
                else st.completed_tests ++ [n])
              warnings := (if n ∈ st.completed_tests then st.warnings ++ [n]
                else st.warnings) }) := by
  cases hn : test_get_name c with
  | none => rw [step2_none st c hn] at h; exact absurd h (by simp)
  | some n =>
    cases hs : is_test_skipped c with
    | true =>
      rw [step2_skip st c n hn hs] at h
      exact Or.inl ⟨n, rfl, rfl, ((Option.some.injEq _ _).mp h).symm⟩
    | false =>
      rw [step2_comp st c n hn hs] at h
      exact Or.inr ⟨n, rfl, rfl, ((Option.some.injEq _ _).mp h).symm⟩

/-! ### Invariants of the first merge loop -/

def keep1 (c : Elem) : Bool :=
  !(decide (c.tag = "testcase") && is_test_skipped c)

theorem foldlM_step1_spec (cs : List Elem) (st st' : MergeState)
    (h : cs.foldlM step1 st = some st') :
    st'.children = st.children ++ cs.filter keep1
    ∧ st'.warnings = st.warnings
    ∧ (∀ n, n ∈ st'.completed_tests ↔ n ∈ st.completed_tests ∨
        ∃ c, c ∈ cs ∧ c.tag = "testcase" ∧ is_test_skipped c = false ∧
          test_get_name c = some n)
    ∧ (∀ p : String × Elem, p ∈ st'.skipped_tests → p ∈ st.skipped_tests ∨
        (p.2 ∈ cs ∧ is_test_skipped p.2 = true ∧ test_get_name p.2 = some p.1))
    ∧ ((st.skipped_tests.map Prod.fst).Nodup → (st'.skipped_tests.map Prod.fst).Nodup)
    ∧ (∀ n, (hasKey st.skipped_tests n = true ∨
        ∃ c, c ∈ cs ∧ c.tag = "testcase" ∧ is_test_skipped c = true ∧
          test_get_name c = some n) → hasKey st'.skipped_tests n = true) := by
  induction cs generalizing st with
  | nil =>
    simp only [List.foldlM_nil, pure, Option.some.injEq] at h
    subst h
    refine ⟨by simp, rfl, fun n => by simp, fun p hp => Or.inl hp, id, fun n hn => ?_⟩
    rcases hn with hk | ⟨c, hc, _⟩
    · exact hk
    · exact absurd hc (List.not_mem_nil c)
  | cons c cs ih =>
    rw [List.foldlM_cons] at h
    cases hm : step1 st c with
    | none =>
      rw [hm, Option.bind_eq_bind] at h
      simp at h
    | some mid =>
      rw [hm, Option.bind_eq_bind] at h
      simp only [Option.some_bind] at h
      obtain ⟨ihc, ihw, ihcm, ihsk, ihnd, ihhk⟩ := ih mid h
      rcases step1_cases st mid c hm with ⟨ht, hmid⟩ | ⟨n, ht, hn, hs, hmid⟩ |
        ⟨n, ht, hn, hs, hmid⟩
      · -- non-testcase child: kept, nothing recorded
        subst hmid
        have hkeep : keep1 c = true := by simp [keep1, ht]
        refine ⟨?_, ihw, fun m => ?_, fun p hp => ?_, ihnd, fun m hm2 => ?_⟩
        · rw [ihc]; simp [List.filter_cons, hkeep]
        · rw [ihcm m]
          constructor
          · rintro (hst | ⟨c', hc', hp⟩)
            · exact Or.inl hst
            · exact Or.inr ⟨c', List.mem_cons_of_mem c hc', hp⟩
          · rintro (hst | ⟨c', hc', htag, hrest⟩)
            · exact Or.inl hst
            · rcases List.mem_cons.mp hc' with rfl | hc'
              · exact absurd htag ht
              · exact Or.inr ⟨c', hc', htag, hrest⟩
        · rcases ihsk p hp with hst | ⟨hmem, hrest⟩
          · exact Or.inl hst
          · exact Or.inr ⟨List.mem_cons_of_mem c hmem, hrest⟩
        · apply ihhk
          rcases hm2 with hk | ⟨c', hc', htag, hrest⟩
          · exact Or.inl hk
          · rcases List.mem_cons.mp hc' with rfl | hc'
            · exact absurd htag ht
            · exact Or.inr ⟨c', hc', htag, hrest⟩
      · -- skipped testcase child: removed from the tree, maybe recorded
        have hkeep : keep1 c = false := by simp [keep1, ht, hs]
        by_cases hk : hasKey st.skipped_tests n = true
        · rw [if_pos hk] at hmid
          subst hmid
          refine ⟨?_, ihw, fun m => ?_, fun p hp => ?_, ihnd, fun m hm2 => ?_⟩
          · rw [ihc]; simp [List.filter_cons, hkeep]
          · rw [ihcm m]
            constructor
            · rintro (hst | ⟨c', hc', hp⟩)
              · exact Or.inl hst
              · exact Or.inr ⟨c', List.mem_cons_of_mem c hc', hp⟩
            · rintro (hst | ⟨c', hc', htag, hsk, hnm⟩)
              · exact Or.inl hst
              · rcases List.mem_cons.mp hc' with rfl | hc'
                · rw [hs] at hsk; exact absurd hsk (by simp)
                · exact Or.inr ⟨c', hc', htag, hsk, hnm⟩
          · rcases ihsk p hp with hst | ⟨hmem, hrest⟩
            · exact Or.inl hst
            · exact Or.inr ⟨List.mem_cons_of_mem c hmem, hrest⟩
          · apply ihhk
            rcases hm2 with hk2 | ⟨c', hc', htag, hsk, hnm⟩
            · exact Or.inl hk2
            · rcases List.mem_cons.mp hc' with rfl | hc'
              · rw [hn] at hnm
                have hmn : m = n := by
                  have := (Option.some.injEq _ _).mp hnm
                  exact this.symm
                subst hmn
                exact Or.inl hk
              · exact Or.inr ⟨c', hc', htag, hsk, hnm⟩
        · rw [if_neg hk] at hmid
          subst hmid
          refine ⟨?_, ihw, fun m => ?_, fun p hp => ?_, ?_, fun m hm2 => ?_⟩
          · rw [ihc]; simp [List.filter_cons, hkeep]
          · rw [ihcm m]
            constructor
            · rintro (hst | ⟨c', hc', hp⟩)
              · exact Or.inl hst
              · exact Or.inr ⟨c', List.mem_cons_of_mem c hc', hp⟩
            · rintro (hst | ⟨c', hc', htag, hsk, hnm⟩)
              · exact Or.inl hst
              · rcases List.mem_cons.mp hc' with rfl | hc'
                · rw [hs] at hsk; exact absurd hsk (by simp)
                · exact Or.inr ⟨c', hc', htag, hsk, hnm⟩
          · rcases ihsk p hp with hst | ⟨hmem, hrest⟩
            · rcases List.mem_append.mp hst with hin | hnew
              · exact Or.inl hin
              · rcases List.mem_singleton.mp hnew with rfl
                exact Or.inr ⟨List.mem_cons_self c cs, hs, by simpa using hn⟩
            · exact Or.inr ⟨List.mem_cons_of_mem c hmem, hrest⟩
          · intro hnd
            apply ihnd
            have hk' : hasKey st.skipped_tests n = false := by simpa using hk
            simp only [List.map_append, List.map_cons, List.map_nil]
            rw [List.nodup_append]
            refine ⟨hnd, List.nodup_singleton n, fun a ha hb => ?_⟩
            rcases List.mem_singleton.mp hb with rfl
            rcases List.mem_map.mp ha with ⟨p, hp, hpa⟩
            exact ((hasKey_eq_false_iff _ _).mp hk') p hp hpa
          · apply ihhk
            rcases hm2 with hk2 | ⟨c', hc', htag, hsk, hnm⟩
            · refine Or.inl ?_
              rw [hasKey_append_single]
              rw [hk2]; rfl
            · rcases List.mem_cons.mp hc' with rfl | hc'
              · rw [hn] at hnm
                have hmn : m = n := ((Option.some.injEq _ _).mp hnm).symm
                subst hmn
                refine Or.inl ?_
                rw [hasKey_append_single]
                simp
              · exact Or.inr ⟨c', hc', htag, hsk, hnm⟩
      · -- completed testcase child: kept, name recorded
        subst hmid
        have hkeep : keep1 c = true := by simp [keep1, ht, hs]
        refine ⟨?_, ihw, fun m => ?_, fun p hp => ?_, ihnd, fun m hm2 => ?_⟩
        · rw [ihc]; simp [List.filter_cons, hkeep]
        · rw [ihcm m]
          constructor
          · rintro (hst | ⟨c', hc', hp⟩)
            · by_cases hmem : n ∈ st.completed_tests
              · rw [if_pos hmem] at hst; exact Or.inl hst
              · rw [if_neg hmem] at hst
                rcases List.mem_append.mp hst with hin | hone
                · exact Or.inl hin
                · rcases List.mem_singleton.mp hone with rfl
                  exact Or.inr ⟨c, List.mem_cons_self c cs, ht, hs, hn⟩
            · exact Or.inr ⟨c', List.mem_cons_of_mem c hc', hp⟩
          · rintro (hst | ⟨c', hc', htag, hsk, hnm⟩)
            · refine Or.inl ?_
              by_cases hmem : n ∈ st.completed_tests
              · rw [if_pos hmem]; exact hst
              · rw [if_neg hmem]; exact List.mem_append_left _ hst
            · rcases List.mem_cons.mp hc' with rfl | hc'
              · rw [hn] at hnm
                have hmn : m = n := ((Option.some.injEq _ _).mp hnm).symm
                subst hmn
                refine Or.inl ?_
                by_cases hmem : m ∈ st.completed_tests
                · rw [if_pos hmem]; exact hmem
                · rw [if_neg hmem]; exact List.mem_append_right _ (List.mem_singleton_self m)
              · exact Or.inr ⟨c', hc', htag, hsk, hnm⟩
        · rcases ihsk p hp with hst | ⟨hmem, hrest⟩
          · exact Or.inl hst
          · exact Or.inr ⟨List.mem_cons_of_mem c hmem, hrest⟩
        · apply ihhk
          rcases hm2 with hk2 | ⟨c', hc', htag, hsk, hnm⟩
          · exact Or.inl hk2
          · rcases List.mem_cons.mp hc' with rfl | hc'
            · rw [hs] at hsk; exact absurd hsk (by simp)
            · exact Or.inr ⟨c', hc', htag, hsk, hnm⟩

/-! ### Invariants of the second merge loop -/

theorem foldlM_step2_spec (cs : List Elem) (st st' : MergeState)
    (h : cs.foldlM step2 st = some st') :
    st'.children = st.children ++ cs.filter (fun c => !is_test_skipped c)
    ∧ (∀ n, n ∈ st'.completed_tests ↔ n ∈ st.completed_tests ∨
        ∃ c, c ∈ cs ∧ is_test_skipped c = false ∧ test_get_name c = some n)
    ∧ (∀ p : String × Elem, p ∈ st'.skipped_tests → p ∈ st.skipped_tests ∨
        (p.2 ∈ cs ∧ is_test_skipped p.2 = true ∧ test_get_name p.2 = some p.1))
    ∧ ((st.skipped_tests.map Prod.fst).Nodup → (st'.skipped_tests.map Prod.fst).Nodup) := by
  induction cs generalizing st with
  | nil =>
    simp only [List.foldlM_nil, pure, Option.some.injEq] at h
    subst h
    exact ⟨by simp, fun n => by simp, fun p hp => Or.inl hp, id⟩
  | cons c cs ih =>
    rw [List.foldlM_cons] at h
    cases hm : step2 st c with
    | none =>
      rw [hm, Option.bind_eq_bind] at h
      simp at h
    | some mid =>
      rw [hm, Option.bind_eq_bind] at h
      simp only [Option.some_bind] at h
      obtain ⟨ihc, ihcm, ihsk, ihnd⟩ := ih mid h
      rcases step2_cases st mid c hm with ⟨n, hn, hs, hmid⟩ | ⟨n, hn, hs, hmid⟩
      · -- skipped child
        by_cases hins : n ∉ st.completed_tests ∧ hasKey st.skipped_tests n = false
        · rw [if_pos hins] at hmid
          subst hmid
          refine ⟨?_, fun m => ?_, fun p hp => ?_, ?_⟩
          · rw [ihc]; simp [List.filter_cons, hs]
          · rw [ihcm m]
            constructor
            · rintro (hst | ⟨c', hc', hp⟩)
              · exact Or.inl hst
              · exact Or.inr ⟨c', List.mem_cons_of_mem c hc', hp⟩
            · rintro (hst | ⟨c', hc', hsk, hnm⟩)
              · exact Or.inl hst
              · rcases List.mem_cons.mp hc' with rfl | hc'
                · rw [hs] at hsk; exact absurd hsk (by simp)
                · exact Or.inr ⟨c', hc', hsk, hnm⟩
          · rcases ihsk p hp with hst | ⟨hmem, hrest⟩
            · rcases List.mem_append.mp hst with hin | hnew
              · exact Or.inl hin
              · rcases List.mem_singleton.mp hnew with rfl
                exact Or.inr ⟨List.mem_cons_self c cs, hs, by simpa using hn⟩
            · exact Or.inr ⟨List.mem_cons_of_mem c hmem, hrest⟩
          · intro hnd
            apply ihnd
            simp only [List.map_append, List.map_cons, List.map_nil]
            rw [List.nodup_append]
            refine ⟨hnd, List.nodup_singleton n, fun a ha hb => ?_⟩
            rcases List.mem_singleton.mp hb with rfl
            rcases List.mem_map.mp ha with ⟨p, hp, hpa⟩
            exact ((hasKey_eq_false_iff _ _).mp hins.2) p hp hpa
        · rw [if_neg hins] at hmid
          subst hmid
          refine ⟨?_, fun m => ?_, fun p hp => ?_, ihnd⟩
          · rw [ihc]; simp [List.filter_cons, hs]
          · rw [ihcm m]
            constructor
            · rintro (hst | ⟨c', hc', hp⟩)
              · exact Or.inl hst
              · exact Or.inr ⟨c', List.mem_cons_of_mem c hc', hp⟩
            · rintro (hst | ⟨c', hc', hsk, hnm⟩)
              · exact Or.inl hst
              · rcases List.mem_cons.mp hc' with rfl | hc'
                · rw [hs] at hsk; exact absurd hsk (by simp)
                · exact Or.inr ⟨c', hc', hsk, hnm⟩
          · rcases ihsk p hp with hst | ⟨hmem, hrest⟩
            · exact Or.inl hst
            · exact Or.inr ⟨List.mem_cons_of_mem c hmem, hrest⟩
      · -- completed child
        subst hmid
        refine ⟨?_, fun m => ?_, fun p hp => ?_, ?_⟩
        · rw [ihc]; simp [List.filter_cons, hs]
        · rw [ihcm m]
          constructor
          · rintro (hst | ⟨c', hc', hp⟩)
            · by_cases hmem : n ∈ st.completed_tests
              · rw [if_pos hmem] at hst; exact Or.inl hst
              · rw [if_neg hmem] at hst
                rcases List.mem_append.mp hst with hin | hone
                · exact Or.inl hin
                · rcases List.mem_singleton.mp hone with rfl
                  exact Or.inr ⟨c, List.mem_cons_self c cs, hs, hn⟩
            · exact Or.inr ⟨c', List.mem_cons_of_mem c hc', hp⟩
          · rintro (hst | ⟨c', hc', hsk, hnm⟩)
            · refine Or.inl ?_
              by_cases hmem : n ∈ st.completed_tests
              · rw [if_pos hmem]; exact hst
              · rw [if_neg hmem]; exact List.mem_append_left _ hst
            · rcases List.mem_cons.mp hc' with rfl | hc'
              · rw [hn] at hnm
                have hmn : m = n := ((Option.some.injEq _ _).mp hnm).symm
                subst hmn
                refine Or.inl ?_
                by_cases hmem : m ∈ st.completed_tests
                · rw [if_pos hmem]; exact hmem
                · rw [if_neg hmem]; exact List.mem_append_right _ (List.mem_singleton_self m)
              · exact Or.inr ⟨c', hc', hsk, hnm⟩
        · rcases ihsk p hp with hst | ⟨hmem, hrest⟩
          · exact Or.inl ((mem_delKey _ _ _).mp hst).1
          · exact Or.inr ⟨List.mem_cons_of_mem c hmem, hrest⟩
        · intro hnd
          apply ihnd
          exact (keys_delKey_sublist st.skipped_tests n).nodup hnd

/-- Number of non-skipped (completed) children of a list that carry the
name `n`. -/
def countCompl (cs : List Elem) (n : String) : ℕ :=
  cs.countP (fun c => !is_test_skipped c && (test_get_name c == some n))

theorem countCompl_cons (c : Elem) (cs : List Elem) (n : String) :
    countCompl (c :: cs) n = countCompl cs n +
      (if is_test_skipped c = false ∧ test_get_name c = some n then 1 else 0) := by
  rw [countCompl, countCompl, List.countP_cons]
  congr 1
  by_cases hs : is_test_skipped c
  · simp [hs]
  · by_cases hn : test_get_name c = some n
    · simp [hs, hn]
    · simp only [Bool.not_eq_true] at hs
      simp [hs, hn]

theorem foldlM_step2_warnings (cs : List Elem) (st st' : MergeState)
    (h : cs.foldlM step2 st = some st') (n : String) :
    st'.warnings.count n = st.warnings.count n +
      (if n ∈ st.completed_tests then countCompl cs n else countCompl cs n - 1) := by
  induction cs generalizing st with
  | nil =>
    simp only [List.foldlM_nil, pure, Option.some.injEq] at h
    subst h
    simp [countCompl]
  | cons c cs ih =>
    rw [List.foldlM_cons] at h
    cases hm : step2 st c with
    | none =>
      rw [hm, Option.bind_eq_bind] at h
      simp at h
    | some mid =>
      rw [hm, Option.bind_eq_bind] at h
      simp only [Option.some_bind] at h
      have ihm := ih mid h
      rcases step2_cases st mid c hm with ⟨k, hk, hs, hmid⟩ | ⟨k, hk, hs, hmid⟩
      · -- skipped child: warnings and completed list unchanged
        have hcc : countCompl (c :: cs) n = countCompl cs n := by
          rw [countCompl_cons]
          simp [hs]
        have hw : mid.warnings = st.warnings := by
          rw [hmid]; split <;> rfl
        have hcm : mid.completed_tests = st.completed_tests := by
          rw [hmid]; split <;> rfl
        rw [ihm, hw, hcm, hcc]
      · -- completed child named k
        subst hmid
        by_cases hkn : k = n
        · subst hkn
          by_cases hmem : k ∈ st.completed_tests
          · simp only [if_pos hmem] at ihm ⊢
            have h1 : List.count k (st.warnings ++ [k]) = List.count k st.warnings + 1 := by
              rw [List.count_append]; simp
            have h2 : countCompl (c :: cs) k = countCompl cs k + 1 := by
              rw [countCompl_cons]; simp [hs, hk]
            omega
          · have hmem2 : k ∈ st.completed_tests ++ [k] :=
              List.mem_append_right _ (List.mem_singleton_self k)
            simp only [if_neg hmem] at ihm ⊢
            simp only [if_pos hmem2] at ihm
            have h2 : countCompl (c :: cs) k = countCompl cs k + 1 := by
              rw [countCompl_cons]; simp [hs, hk]
            omega
        · have hcc : countCompl (c :: cs) n = countCompl cs n := by
            rw [countCompl_cons]
            have hne : ¬(is_test_skipped c = false ∧ test_get_name c = some n) := by
              rintro ⟨_, hcn⟩
              rw [hk] at hcn
              exact hkn ((Option.some.injEq _ _).mp hcn)
            simp [hne]
          have hmemiff : (n ∈ (if k ∈ st.completed_tests then st.completed_tests
              else st.completed_tests ++ [k])) ↔ n ∈ st.completed_tests := by
            split
            · exact Iff.rfl
            · constructor
              · intro hn2
                rcases List.mem_append.mp hn2 with hin | hone
                · exact hin
                · exact absurd (List.mem_singleton.mp hone) (fun hh => hkn hh.symm)
              · exact fun hn2 => List.mem_append_left _ hn2
          have hwn : List.count n (if k ∈ st.completed_tests then st.warnings ++ [k]
              else st.warnings) = List.count n st.warnings := by
            split
            · rw [List.count_append]
              have hnk : ¬n = k := fun hh2 => hkn hh2.symm
              have hone : List.count n [k] = 0 := by
                simp [List.count_cons, hnk]
              omega
            · rfl
          rw [hcc]
          by_cases hmem : n ∈ st.completed_tests
          · rw [if_pos hmem]
            rw [if_pos (hmemiff.mpr hmem)] at ihm
            rw [ihm, hwn]
          · rw [if_neg hmem]
            rw [if_neg (fun hh => hmem (hmemiff.mp hh))] at ihm
            rw [ihm, hwn]

theorem foldlM_step2_haskey (cs : List Elem) (st st' : MergeState)
    (h : cs.foldlM step2 st = some st') (n : String)
    (h0 : countCompl cs n = 0) (h1 : n ∉ st.completed_tests)
    (h2 : hasKey st.skipped_tests n = true ∨
      ∃ c, c ∈ cs ∧ is_test_skipped c = true ∧ test_get_name c = some n) :
    hasKey st'.skipped_tests n = true := by
  induction cs generalizing st with
  | nil =>
    simp only [List.foldlM_nil, pure, Option.some.injEq] at h
    subst h
    rcases h2 with hk | ⟨c, hc, _⟩
    · exact hk
    · exact absurd hc (List.not_mem_nil c)
  | cons c cs ih =>
    rw [List.foldlM_cons] at h
    cases hm : step2 st c with
    | none =>
      rw [hm, Option.bind_eq_bind] at h
      simp at h
    | some mid =>
      rw [hm, Option.bind_eq_bind] at h
      simp only [Option.some_bind] at h
      rcases step2_cases st mid c hm with ⟨k, hk, hs, hmid⟩ | ⟨k, hk, hs, hmid⟩
      · -- skipped child named k
        have h0' : countCompl cs n = 0 := by
          rw [countCompl_cons] at h0
          omega
        have h1' : n ∉ mid.completed_tests := by
          rw [hmid]
          split <;> exact h1
        apply ih mid h h0' h1'
        subst hmid
        by_cases hins : k ∉ st.completed_tests ∧ hasKey st.skipped_tests k = false
        · rw [if_pos hins]
          rcases h2 with hkey | ⟨c', hc', hsk', hnm'⟩
          · refine Or.inl ?_
            rw [hasKey_append_single, hkey]
            rfl
          · rcases List.mem_cons.mp hc' with rfl | hc'
            · rw [hk] at hnm'
              have : k = n := (Option.some.injEq _ _).mp hnm'
              subst this
              refine Or.inl ?_
              rw [hasKey_append_single]
              simp
            · exact Or.inr ⟨c', hc', hsk', hnm'⟩
        · rw [if_neg hins]
          rcases h2 with hkey | ⟨c', hc', hsk', hnm'⟩
          · exact Or.inl hkey
          · rcases List.mem_cons.mp hc' with rfl | hc'
            · rw [hk] at hnm'
              have : k = n := (Option.some.injEq _ _).mp hnm'
              subst this
              refine Or.inl ?_
              rcases Decidable.not_and_iff_or_not.mp hins with hc1 | hc2
              · exact absurd h1 (by simpa using hc1)
              · simpa using hc2
            · exact Or.inr ⟨c', hc', hsk', hnm'⟩
      · -- completed child named k; k ≠ n since no completed n exists in c :: cs
        have hkn : ¬(k = n) := by
          intro hh
          subst hh
          rw [countCompl_cons] at h0
          simp [hs, hk] at h0
        have h0' : countCompl cs n = 0 := by
          rw [countCompl_cons] at h0
          omega
        have h1' : n ∉ mid.completed_tests := by
          rw [hmid]
          simp only
          split
          · exact h1
          · intro hmem
            rcases List.mem_append.mp hmem with hin | hone
            · exact h1 hin
            · exact hkn (List.mem_singleton.mp hone).symm
        apply ih mid h h0' h1'
        subst hmid
        rcases h2 with hkey | ⟨c', hc', hsk', hnm'⟩
        · refine Or.inl ?_
          simp only
          rw [hasKey_delKey_other _ _ _ (fun hh => hkn hh.symm)]
          exact hkey
        · rcases List.mem_cons.mp hc' with rfl | hc'
          · rw [hs] at hsk'; exact absurd hsk' (by simp)
          · exact Or.inr ⟨c', hc', hsk', hnm'⟩

/-! ### Destructuring a successful merge, and the materialized skips -/

theorem merge_trees_eq (t : Elem) (rest : List Elem) (r : Elem) (ws : List String)
    (hne : rest ≠ []) (h : merge_trees (t :: rest) = some (r, ws)) :
    ∃ st1 st2 : MergeState,
      t.children.foldlM step1 ⟨[], [], [], []⟩ = some st1 ∧
      (rest.flatMap Elem.children).foldlM step2 st1 = some st2 ∧
      test_suite_update_attribs (Elem.mk t.tag t.attrib t.text
        (st2.children ++ materializedSkips st2)) = some r ∧
      ws = st2.warnings := by
  rw [merge_trees] at h
  rw [if_neg (by simpa using hne)] at h
  cases hst1 : t.children.foldlM step1 ⟨[], [], [], []⟩ with
  | none =>
    rw [hst1, Option.bind_eq_bind] at h
    simp at h
  | some st1 =>
    rw [hst1, Option.bind_eq_bind] at h
    simp only [Option.some_bind] at h
    cases hst2 : (rest.flatMap Elem.children).foldlM step2 st1 with
    | none =>
      rw [hst2, Option.bind_eq_bind] at h
      simp at h
    | some st2 =>
      rw [hst2, Option.bind_eq_bind] at h
      simp only [Option.some_bind] at h
      cases hag : test_suite_update_attribs (Elem.mk t.tag t.attrib t.text
          (st2.children ++ materializedSkips st2)) with
      | none =>
        rw [hag] at h
        simp at h
      | some merged =>
        rw [hag] at h
        simp only [Option.some_bind, pure, Option.some.injEq, Prod.mk.injEq] at h
        obtain ⟨hr, hw⟩ := h
        exact ⟨st1, st2, rfl, hst2, hr ▸ hag, hw.symm⟩

/-- Number of direct children of `l` that carry the name `n`. -/
def countNamed (l : List Elem) (n : String) : ℕ :=
  l.countP (fun c => test_get_name c == some n)

theorem materializedSkips_count_zero (st : MergeState) (n : String)
    (hnames : ∀ p ∈ st.skipped_tests, test_get_name p.2 = some p.1)
    (hmem : n ∈ st.completed_tests) :
    countNamed (materializedSkips st) n = 0 := by
  rw [countNamed, materializedSkips, List.countP_map, List.countP_eq_zero]
  intro p hp
  rcases List.mem_filter.mp hp with ⟨hpl, hpc⟩
  simp only [decide_eq_true_eq] at hpc
  simp only [Function.comp_apply, beq_iff_eq]
  rw [hnames p hpl]
  intro hh
  have : p.1 = n := (Option.some.injEq _ _).mp hh
  exact hpc (this ▸ hmem)

theorem materializedSkips_count_one (st : MergeState) (n : String)
    (hnames : ∀ p ∈ st.skipped_tests, test_get_name p.2 = some p.1)
    (hnd : (st.skipped_tests.map Prod.fst).Nodup)
    (hnm : n ∉ st.completed_tests) (hk : hasKey st.skipped_tests n = true) :
    countNamed (materializedSkips st) n = 1 := by
  rw [countNamed, materializedSkips, List.countP_map, List.countP_filter]
  rw [List.countP_congr (q := fun p => decide (p.1 = n)) ?_]
  · exact countP_key_eq_one st.skipped_tests n hnd hk
  · intro p hp
    simp only [Function.comp_apply, Bool.and_eq_true, beq_iff_eq, decide_eq_true_eq]
    rw [hnames p hp]
    by_cases hpn : p.1 = n
    · subst hpn
      simp [hnm]
    · simp only [Option.some.injEq, hpn, false_and, iff_false]

theorem materializedSkips_skipped (st : MergeState)
    (hskips : ∀ p ∈ st.skipped_tests, is_test_skipped p.2 = true) :
    ∀ e ∈ materializedSkips st, is_test_skipped e = true := by
  intro e he
  rcases List.mem_map.mp he with ⟨p, hp, hpe⟩
  exact hpe ▸ hskips p (List.mem_filter.mp hp).1

theorem materializedSkips_not_completed (st : MergeState) :
    ∀ e ∈ materializedSkips st, ∃ p, p ∈ st.skipped_tests ∧ p.2 = e ∧
      p.1 ∉ st.completed_tests := by
  intro e he
  rcases List.mem_map.mp he with ⟨p, hp, hpe⟩
  rcases List.mem_filter.mp hp with ⟨hpl, hpc⟩
  exact ⟨p, hpl, hpe, by simpa using hpc⟩

theorem countP_flatMap_sum (p : Elem → Bool) (l : List Elem) (f : Elem → List Elem) :
    (l.flatMap f).countP p = (l.map (fun t => (f t).countP p)).sum := by
  induction l with
  | nil => simp
  | cons t l ih => simp [List.flatMap_cons, List.countP_append, ih]

theorem countNamed_filter_not_skipped (cs : List Elem) (n : String) :
    countNamed (cs.filter (fun c => !is_test_skipped c)) n = countCompl cs n := by
  rw [countNamed, countCompl, List.countP_filter]
  apply List.countP_congr
  intro c _
  rw [Bool.and_comm]

theorem countNamed_filter_keep1 (cs : List Elem) (n : String)
    (hWF : ∀ c ∈ cs, c.tag = "testcase") :
    countNamed (cs.filter keep1) n = countCompl cs n := by
  rw [countNamed, countCompl, List.countP_filter]
  apply List.countP_congr
  intro c hc
  have ht := hWF c hc
  simp [keep1, ht, Bool.and_comm]

/-! ### Aggregator lemmas -/

/-- The time contribution of a single Case in the aggregation
(`float(test.attrib.get('time', '0'))`), defaulting to `0` where the
aggregator itself would fail. -/
def caseTime (c : Elem) : ℚ :=
  (parseTime ((attrGet c.attrib "time").getD "0")).getD 0

/-- Number of Case elements of the whole subtree, in the aggregator's
scan order. -/
def countCases (e : Elem) : ℕ := (e.iter "testcase").length

/-- Exact sum of the Case `time` attributes of the whole subtree. -/
def sumTimes (e : Elem) : ℚ := ((e.iter "testcase").map caseTime).sum

theorem scanCase_char (s s' : SuiteState) (c : Elem) (h : scanCase s c = some s') :
    ∃ t, parseTime ((attrGet c.attrib "time").getD "0") = some t ∧
      s'.time = s.time + t ∧
      s'.tests + s'.skipped = s.tests + s.skipped + 1 ∧
      (s.failures ≤ s.tests → s'.failures ≤ s'.tests) ∧
      (s.errors ≤ s.tests → s'.errors ≤ s'.tests) := by
  rw [scanCase] at h
  cases hp : parseTime ((attrGet c.attrib "time").getD "0") with
  | none =>
    rw [hp, Option.bind_eq_bind] at h
    simp at h
  | some t =>
    rw [hp, Option.bind_eq_bind] at h
    simp only [Option.some_bind] at h
    refine ⟨t, rfl, ?_⟩
    by_cases hsk : is_test_state c "skipped"
    · rw [if_pos hsk] at h
      have hse := (Option.some.injEq _ _).mp h
      subst hse
      refine ⟨qAdd_eq _ _, ?_, ?_, ?_⟩
      · show s.tests + (s.skipped + 1) = s.tests + s.skipped + 1
        omega
      · exact fun hh => hh
      · exact fun hh => hh
    · rw [if_neg hsk] at h
      by_cases hf : is_test_state c "failure"
      · rw [if_pos hf] at h
        have hse := (Option.some.injEq _ _).mp h
        subst hse
        refine ⟨qAdd_eq _ _, ?_, ?_, ?_⟩
        · show s.tests + 1 + s.skipped = s.tests + s.skipped + 1
          omega
        · intro hh
          show s.failures + 1 ≤ s.tests + 1
          omega
        · intro hh
          show s.errors ≤ s.tests + 1
          omega
      · rw [if_neg hf] at h
        by_cases he : is_test_state c "error"
        · rw [if_pos he] at h
          have hse := (Option.some.injEq _ _).mp h
          subst hse
          refine ⟨qAdd_eq _ _, ?_, ?_, ?_⟩
          · show s.tests + 1 + s.skipped = s.tests + s.skipped + 1
            omega
          · intro hh
            show s.failures ≤ s.tests + 1
            omega
          · intro hh
            show s.errors + 1 ≤ s.tests + 1
            omega
        · rw [if_neg he] at h
          have hse := (Option.some.injEq _ _).mp h
          subst hse
          refine ⟨qAdd_eq _ _, ?_, ?_, ?_⟩
          · show s.tests + 1 + s.skipped = s.tests + s.skipped + 1
            omega
          · intro hh
            show s.failures ≤ s.tests + 1
            omega
          · intro hh
            show s.errors ≤ s.tests + 1
            omega

theorem scan_fold (cs : List Elem) (s0 s : SuiteState)
    (h : cs.foldlM scanCase s0 = some s) :
    s.tests + s.skipped = s0.tests + s0.skipped + cs.length
    ∧ (s0.failures ≤ s0.tests → s.failures ≤ s.tests)
    ∧ (s0.errors ≤ s0.tests → s.errors ≤ s.tests)
    ∧ s.time = s0.time + (cs.map caseTime).sum := by
  induction cs generalizing s0 with
  | nil =>
    simp only [List.foldlM_nil, pure, Option.some.injEq] at h
    subst h
    exact ⟨rfl, id, id, by simp⟩
  | cons c cs ih =>
    rw [List.foldlM_cons] at h
    cases hm : scanCase s0 c with
    | none =>
      rw [hm, Option.bind_eq_bind] at h
      simp at h
    | some mid =>
      rw [hm, Option.bind_eq_bind] at h
      simp only [Option.some_bind] at h
      obtain ⟨ihc, ihf, ihe, iht⟩ := ih mid h
      obtain ⟨t, hpt, htime, hcnt, hfp, hep⟩ := scanCase_char s0 mid c hm
      refine ⟨by rw [ihc]; simp only [List.length_cons]; omega,
        fun hh => ihf (hfp hh), fun hh => ihe (hep hh), ?_⟩
      rw [iht, htime]
      have hct : caseTime c = t := by rw [caseTime, hpt]; rfl
      rw [List.map_cons, List.sum_cons, hct]
      ring

theorem computeSuiteState_spec (e : Elem) (s : SuiteState)
    (h : computeSuiteState e = some s) :
    s.tests + s.skipped = countCases e ∧ s.failures ≤ s.tests ∧
      s.errors ≤ s.tests ∧ s.time = sumTimes e := by
  obtain ⟨hc, hf, he, ht⟩ := scan_fold (e.iter "testcase") ⟨0, 0, 0, 0, 0⟩ s h
  refine ⟨?_, hf (by simp), he (by simp), ?_⟩
  · rw [hc]
    show 0 + 0 + (e.iter "testcase").length = countCases e
    rw [countCases]
    omega
  rw [ht, sumTimes]
  simp

theorem tsua_eq (e r : Elem) (h : test_suite_update_attribs e = some r) :
    ∃ s, computeSuiteState e = some s ∧
      r = Elem.mk e.tag (setSuiteAttribs e.attrib s) e.text e.children := by
  rw [test_suite_update_attribs] at h
  cases hs : computeSuiteState e with
  | none =>
    rw [hs, Option.bind_eq_bind] at h
    simp at h
  | some s =>
    rw [hs, Option.bind_eq_bind] at h
    simp only [Option.some_bind, pure, Option.some.injEq] at h
    exact ⟨s, rfl, h.symm⟩

theorem setSuiteAttribs_gets (l : List (String × String)) (s : SuiteState) :
    attrGet (setSuiteAttribs l s) "tests" = some (Nat.repr s.tests) ∧
    attrGet (setSuiteAttribs l s) "skipped" = some (Nat.repr s.skipped) ∧
    attrGet (setSuiteAttribs l s) "failures" = some (Nat.repr s.failures) ∧
    attrGet (setSuiteAttribs l s) "errors" = some (Nat.repr s.errors) ∧
    attrGet (setSuiteAttribs l s) "time" = some (floatStr s.time) := by
  rw [setSuiteAttribs]
  refine ⟨?_, ?_, ?_, ?_, ?_⟩
  · rw [attrGet_setAttr_other _ _ _ _ (by decide), attrGet_setAttr_other _ _ _ _ (by decide),
      attrGet_setAttr_other _ _ _ _ (by decide), attrGet_setAttr_other _ _ _ _ (by decide),
      attrGet_setAttr_same]
  · rw [attrGet_setAttr_other _ _ _ _ (by decide), attrGet_setAttr_other _ _ _ _ (by decide),
      attrGet_setAttr_other _ _ _ _ (by decide), attrGet_setAttr_same]
  · rw [attrGet_setAttr_other _ _ _ _ (by decide), attrGet_setAttr_other _ _ _ _ (by decide),
      attrGet_setAttr_same]
  · rw [attrGet_setAttr_other _ _ _ _ (by decide), attrGet_setAttr_same]
  · rw [attrGet_setAttr_same]

theorem setSuiteAttribs_other (l : List (String × String)) (s : SuiteState)
    (k : String) (h1 : k ≠ "tests") (h2 : k ≠ "skipped") (h3 : k ≠ "failures")
    (h4 : k ≠ "errors") (h5 : k ≠ "time") :
    attrGet (setSuiteAttribs l s) k = attrGet l k := by
  rw [setSuiteAttribs, attrGet_setAttr_other _ _ _ _ h5,
    attrGet_setAttr_other _ _ _ _ h4, attrGet_setAttr_other _ _ _ _ h3,
    attrGet_setAttr_other _ _ _ _ h2, attrGet_setAttr_other _ _ _ _ h1]

theorem iter_mk_attrib (t : String) (a a' : List (String × String))
    (x : Option String) (cs : List Elem) (tg : String) (hne : t ≠ tg) :
    (Elem.mk t a' x cs).iter tg = (Elem.mk t a x cs).iter tg := by
  simp [Elem.iter, Elem.iterAll, List.filter_cons, Elem.tag, hne]

/-! ### Claim theorems -/

/-- C3: Identity law — `merge_trees` applied to a one-element sequence
returns the single tree unchanged (and prints nothing): no children are
removed, moved or appended, and the attribute-aggregation pass is not
applied to it (the whole tree is returned as-is before any processing). -/
theorem merge_single_identity (t : Elem) : merge_trees [t] = some (t, []) := rfl

/-- C5: Aggregator classification is exclusive with fixed priority: a
scanned Case with a skipped marker increments only `skipped`; otherwise
`tests` is incremented, and then `failures` if a failure marker exists,
else `errors` if an error marker exists — a Case with both failure and
error markers increments `failures` but not `errors`, and a skipped Case
increments none of `tests`/`failures`/`errors`. -/
theorem scanCase_classification (s s' : SuiteState) (c : Elem)
    (h : scanCase s c = some s') :
    (is_test_state c "skipped" = true →
      s'.skipped = s.skipped + 1 ∧ s'.tests = s.tests ∧
      s'.failures = s.failures ∧ s'.errors = s.errors) ∧
    (is_test_state c "skipped" = false →
      s'.tests = s.tests + 1 ∧ s'.skipped = s.skipped ∧
      (is_test_state c "failure" = true →
        s'.failures = s.failures + 1 ∧ s'.errors = s.errors) ∧
      (is_test_state c "failure" = false → s'.failures = s.failures ∧
        (is_test_state c "error" = true → s'.errors = s.errors + 1) ∧
        (is_test_state c "error" = false → s'.errors = s.errors))) := by
  rw [scanCase] at h
  cases hp : parseTime ((attrGet c.attrib "time").getD "0") with
  | none =>
    rw [hp, Option.bind_eq_bind] at h
    simp at h
  | some t =>
    rw [hp, Option.bind_eq_bind] at h
    simp only [Option.some_bind] at h
    by_cases hsk : is_test_state c "skipped"
    · rw [if_pos hsk] at h
      have hse := (Option.some.injEq _ _).mp h
      subst hse
      exact ⟨fun _ => ⟨rfl, rfl, rfl, rfl⟩, fun hh => absurd hsk (by simp [hh])⟩
    · rw [if_neg hsk] at h
      refine ⟨fun hh => absurd hh (by simpa using hsk), fun _ => ?_⟩
      by_cases hf : is_test_state c "failure"
      · rw [if_pos hf] at h
        have hse := (Option.some.injEq _ _).mp h
        subst hse
        exact ⟨rfl, rfl, fun _ => ⟨rfl, rfl⟩, fun hh => absurd hf (by simp [hh])⟩
      · rw [if_neg hf] at h
        by_cases he : is_test_state c "error"
        · rw [if_pos he] at h
          have hse := (Option.some.injEq _ _).mp h
          subst hse
          exact ⟨rfl, rfl, fun hh => absurd hh (by simpa using hf),
            fun _ => ⟨rfl, fun _ => rfl, fun hh => absurd he (by simp [hh])⟩⟩
        · rw [if_neg he] at h
          have hse := (Option.some.injEq _ _).mp h
          subst hse
          exact ⟨rfl, rfl, fun hh => absurd hh (by simpa using hf),
            fun _ => ⟨rfl, fun hh => absurd hh (by simpa using he), fun _ => rfl⟩⟩

/-- C5 witness: a Case carrying both a failure and an error marker
increments `failures` and not `errors`; a skipped Case increments only
`skipped`. -/
theorem scanCase_classification_witness :
    (scanCase ⟨0, 0, 0, 0, 0⟩ (Elem.mk "testcase" [("name", "b")] none
        [Elem.mk "failure" [] none [], Elem.mk "error" [] none []]) =
      some ⟨1, 0, 1, 0, 0⟩) ∧
    ((⟨1, 0, 1, 0, 0⟩ : SuiteState).failures = 0 + 1 ∧
      (⟨1, 0, 1, 0, 0⟩ : SuiteState).errors = 0) := by
  refine ⟨by decide, ?_⟩
  have h := scanCase_classification ⟨0, 0, 0, 0, 0⟩ ⟨1, 0, 1, 0, 0⟩
    (Elem.mk "testcase" [("name", "b")] none
      [Elem.mk "failure" [] none [], Elem.mk "error" [] none []]) (by decide)
  exact ((h.2 (by decide)).2.2.1 (by decide))

/-- C6 (amended): a Case with no `time` attribute contributes `0.0` to
the time sum and scanning proceeds; but a Case whose `time` value cannot
be parsed as a number makes the scan fail (Python's `float` raises
`ValueError`), it does not contribute `0.0`. -/
theorem scan_time_missing_and_unparsable :
    (∀ (s : SuiteState) (c : Elem), attrGet c.attrib "time" = none →
      ∃ s', scanCase s c = some s' ∧ s'.time = s.time) ∧
    (∀ (s : SuiteState) (c : Elem) (v : String),
      attrGet c.attrib "time" = some v → parseTime v = none →
      scanCase s c = none) := by
  constructor
  · intro s c hmiss
    have hp : parseTime ((attrGet c.attrib "time").getD "0") = some 0 := by
      rw [hmiss]
      decide
    have htime : qAdd s.time 0 = s.time := by rw [qAdd_eq]; ring
    rw [scanCase, hp, Option.bind_eq_bind]
    simp only [Option.some_bind]
    by_cases hsk : is_test_state c "skipped"
    · rw [if_pos hsk]
      exact ⟨_, rfl, htime⟩
    · rw [if_neg hsk]
      by_cases hf : is_test_state c "failure"
      · rw [if_pos hf]
        exact ⟨_, rfl, htime⟩
      · rw [if_neg hf]
        by_cases he : is_test_state c "error"
        · rw [if_pos he]
          exact ⟨_, rfl, htime⟩
        · rw [if_neg he]
          exact ⟨_, rfl, htime⟩
  · intro s c v hv hbad
    have hp : parseTime ((attrGet c.attrib "time").getD "0") = none := by
      rw [hv]
      exact hbad
    rw [scanCase, hp, Option.bind_eq_bind]
    rfl

/-- C6 counterexample: the claim says an unparsable `time` contributes
`0.0` and aggregation completes without error; on this suite, whose only
testcase has `time="abc"`, the aggregation fails instead. -/
theorem agg_unparsable_time_fails :
    test_suite_update_attribs (Elem.mk "testsuite" [] none
      [Elem.mk "testcase" [("name", "t1"), ("time", "abc")] none []]) = none := by
  decide

/-- C6 witness: a Case with no `time` attribute leaves the time sum
unchanged, and a Case with `time="abc"` makes the scan fail. -/
theorem scan_time_missing_and_unparsable_witness :
    (∃ s', scanCase ⟨0, 0, 0, 0, 7⟩
        (Elem.mk "testcase" [("name", "a")] none []) = some s' ∧
      s'.time = (⟨0, 0, 0, 0, 7⟩ : SuiteState).time) ∧
    scanCase ⟨0, 0, 0, 0, 7⟩
      (Elem.mk "testcase" [("name", "a"), ("time", "abc")] none []) = none :=
  ⟨scan_time_missing_and_unparsable.1 ⟨0, 0, 0, 0, 7⟩
      (Elem.mk "testcase" [("name", "a")] none []) (by decide),
   scan_time_missing_and_unparsable.2 ⟨0, 0, 0, 0, 7⟩
      (Elem.mk "testcase" [("name", "a"), ("time", "abc")] none []) "abc"
      (by decide) (by decide)⟩

/-- C10: the attribute-aggregation pass writes exactly the five keys
`tests`, `skipped`, `failures`, `errors`, `time` on the suite element
(holding the renderings of the recomputed counters); every other
attribute of the suite is unchanged, and the tag, text and entire child
list — hence every descendant element — are untouched. -/
theorem aggregator_frame (suite r : Elem)
    (h : test_suite_update_attribs suite = some r) :
    r.tag = suite.tag ∧ r.text = suite.text ∧ r.children = suite.children ∧
    (∃ s, computeSuiteState suite = some s ∧
      attrGet r.attrib "tests" = some (Nat.repr s.tests) ∧
      attrGet r.attrib "skipped" = some (Nat.repr s.skipped) ∧
      attrGet r.attrib "failures" = some (Nat.repr s.failures) ∧
      attrGet r.attrib "errors" = some (Nat.repr s.errors) ∧
      attrGet r.attrib "time" = some (floatStr s.time)) ∧
    (∀ k, k ≠ "tests" → k ≠ "skipped" → k ≠ "failures" → k ≠ "errors" →
      k ≠ "time" → attrGet r.attrib k = attrGet suite.attrib k) := by
  obtain ⟨s, hs, hr⟩ := tsua_eq suite r h
  subst hr
  obtain ⟨g1, g2, g3, g4, g5⟩ := setSuiteAttribs_gets suite.attrib s
  exact ⟨rfl, rfl, rfl, ⟨s, hs, g1, g2, g3, g4, g5⟩,
    fun k h1 h2 h3 h4 h5 => setSuiteAttribs_other suite.attrib s k h1 h2 h3 h4 h5⟩

def exSuite10 : Elem :=
  Elem.mk "testsuite" [("name", "n1"), ("skip", "2")] none
    [Elem.mk "testcase" [("name", "a"), ("time", "1.5")] none [],
     Elem.mk "testcase" [("name", "b")] none [Elem.mk "skipped" [] none []]]

/-- C10 witness: on a concrete suite with a pre-existing `name` and
`skip` attribute, the aggregation result keeps tag, text, children and
the untouched attributes, and holds the five recomputed ones. -/
theorem aggregator_frame_witness :
    ((test_suite_update_attribs exSuite10).getD default).tag = exSuite10.tag ∧
    ((test_suite_update_attribs exSuite10).getD default).text = exSuite10.text ∧
    ((test_suite_update_attribs exSuite10).getD default).children = exSuite10.children ∧
    (∃ s, computeSuiteState exSuite10 = some s ∧
      attrGet ((test_suite_update_attribs exSuite10).getD default).attrib "tests" =
        some (Nat.repr s.tests) ∧
      attrGet ((test_suite_update_attribs exSuite10).getD default).attrib "skipped" =
        some (Nat.repr s.skipped) ∧
      attrGet ((test_suite_update_attribs exSuite10).getD default).attrib "failures" =
        some (Nat.repr s.failures) ∧
      attrGet ((test_suite_update_attribs exSuite10).getD default).attrib "errors" =
        some (Nat.repr s.errors) ∧
      attrGet ((test_suite_update_attribs exSuite10).getD default).attrib "time" =
        some (floatStr s.time)) ∧
    (∀ k, k ≠ "tests" → k ≠ "skipped" → k ≠ "failures" → k ≠ "errors" →
      k ≠ "time" → attrGet ((test_suite_update_attribs exSuite10).getD default).attrib k =
        attrGet exSuite10.attrib k) :=
  aggregator_frame exSuite10 ((test_suite_update_attribs exSuite10).getD default)
    (by decide)

theorem serializeElem_eq_cname (t : String) (a : List (String × String))
    (x : Option String) (cs : List Elem) (h : t ∈ CNAME_TAGS) :
    serializeElem (Elem.mk t a x cs) = serializeCName (Elem.mk t a x cs) := by
  rw [serializeElem_unfold, if_pos h]

/-- C8: CDATA serialization fidelity — an element tagged `system-out`,
`skipped`, `error` or `failure` serializes as an opening tag whose
attributes are sorted by attribute name and rendered with `quoteattr`
escaping, then the element's text verbatim inside a CDATA delimiter pair,
then the closing tag; the element's children are not serialized (the
output does not depend on them); and in particular a `system-out` element
with text `A & B` yields `<system-out><![CDATA[A & B]]></system-out>`
with the ampersand unescaped. -/
theorem cdata_serialization_fidelity (tg : String) (a : List (String × String))
    (x : String) (cs : List Elem) (htag : tg ∈ CNAME_TAGS) :
    (serializeElem (Elem.mk tg a (some x) cs) =
      "<" ++ tg ++
        (if String.intercalate " " ((sortAttrs a).map
            (fun p => p.1 ++ "=" ++ quoteattr p.2)) = "" then ""
         else " " ++ String.intercalate " " ((sortAttrs a).map
            (fun p => p.1 ++ "=" ++ quoteattr p.2))) ++ ">" ++
        "<![CDATA[" ++ x ++ "]]>" ++ "</" ++ tg ++ ">") ∧
    serializeElem (Elem.mk tg a (some x) cs) =
      serializeElem (Elem.mk tg a (some x) []) ∧
    serializeElem (Elem.mk "system-out" [] (some "A & B") []) =
      "<system-out><![CDATA[A & B]]></system-out>" := by
  refine ⟨?_, ?_, by decide⟩
  · rw [serializeElem_eq_cname tg a (some x) cs htag]
    rfl
  · rw [serializeElem_eq_cname tg a (some x) cs htag,
      serializeElem_eq_cname tg a (some x) [] htag]
    rfl

/-- C8 witness: a `failure` element with unsorted attributes and a child
element serializes with key-sorted quoted attributes, verbatim CDATA
text, and without its child. -/
theorem cdata_serialization_fidelity_witness :
    (serializeElem (Elem.mk "failure"
        [("type", "AssertionError"), ("message", "boom <&>")] (some "x < y & z")
        [Elem.mk "junk" [] (some "child") []]) =
      "<" ++ "failure" ++
        (if String.intercalate " " ((sortAttrs
            [("type", "AssertionError"), ("message", "boom <&>")]).map
            (fun p => p.1 ++ "=" ++ quoteattr p.2)) = "" then ""
         else " " ++ String.intercalate " " ((sortAttrs
            [("type", "AssertionError"), ("message", "boom <&>")]).map
            (fun p => p.1 ++ "=" ++ quoteattr p.2))) ++ ">" ++
        "<![CDATA[" ++ "x < y & z" ++ "]]>" ++ "</" ++ "failure" ++ ">") ∧
    serializeElem (Elem.mk "failure"
        [("type", "AssertionError"), ("message", "boom <&>")] (some "x < y & z")
        [Elem.mk "junk" [] (some "child") []]) =
      serializeElem (Elem.mk "failure"
        [("type", "AssertionError"), ("message", "boom <&>")] (some "x < y & z") []) ∧
    serializeElem (Elem.mk "system-out" [] (some "A & B") []) =
      "<system-out><![CDATA[A & B]]></system-out>" :=
  cdata_serialization_fidelity "failure"
    [("type", "AssertionError"), ("message", "boom <&>")] "x < y & z"
    [Elem.mk "junk" [] (some "child") []] (by decide)

/-- C9 counterexample: the claim says the shared serialization behavior
is restored on every exit path; when writing the output raises, it is
not — the module is left holding the patched serializer (the
generator-based context manager has no try/finally around its yield). -/
theorem patch_state_persists_on_write_error :
    (merge_xunit [Elem.mk "testsuite" [] none []] true
        ⟨SerializeImpl.default⟩).2 = ⟨SerializeImpl.patched⟩ ∧
    SerializeImpl.patched ≠ SerializeImpl.default := by
  constructor
  · rfl
  · intro hh
    cases hh

/-- C9 (amended): on the successful path the original serializer is
restored for every input and module state; but when writing raises after
a successful merge, the patched serializer remains installed in the
shared module. -/
theorem patch_restore_characterization :
    (∀ (trees : List Elem) (M : EtreeModule),
      (merge_xunit trees false M).2.serialize_xml = M.serialize_xml) ∧
    (∀ (trees : List Elem) (p : Elem × List String) (M : EtreeModule),
      merge_trees trees = some p →
      (merge_xunit trees true M).2.serialize_xml = SerializeImpl.patched) := by
  constructor
  · intro trees M
    rw [merge_xunit]
    cases h : merge_trees trees with
    | none => rfl
    | some p =>
      obtain ⟨m, w⟩ := p
      rfl
  · intro trees p M h
    obtain ⟨m, w⟩ := p
    rw [merge_xunit, h]
    rfl

/-- C9 witness: with one suite (so the merge succeeds) and a failing
write, the module ends patched; with a succeeding write it ends with its
original serializer. -/
theorem patch_restore_characterization_witness :
    (merge_xunit [Elem.mk "testsuite" [] none []] false
      ⟨SerializeImpl.default⟩).2.serialize_xml = SerializeImpl.default ∧
    (merge_xunit [Elem.mk "testsuite" [] none []] true
      ⟨SerializeImpl.default⟩).2.serialize_xml = SerializeImpl.patched :=
  ⟨patch_restore_characterization.1 [Elem.mk "testsuite" [] none []]
      ⟨SerializeImpl.default⟩,
   patch_restore_characterization.2 [Elem.mk "testsuite" [] none []]
      (Elem.mk "testsuite" [] none [], []) ⟨SerializeImpl.default⟩ (by decide)⟩

/-- C4: Aggregate consistency — after a merge of two or more suites (the
first having a non-`testcase` root tag, i.e. being a suite), the root's
recomputed attributes hold renderings of counters satisfying
`tests + skipped` = number of Case elements of the final tree,
`failures ≤ tests`, `errors ≤ tests`, and `time` = the exact sum of all
Case `time` values of the final tree. -/
theorem merge_aggregate_consistency (t : Elem) (rest : List Elem) (r : Elem)
    (ws : List String) (hne : rest ≠ []) (htag : t.tag ≠ "testcase")
    (h : merge_trees (t :: rest) = some (r, ws)) :
    ∃ s : SuiteState,
      attrGet r.attrib "tests" = some (Nat.repr s.tests) ∧
      attrGet r.attrib "skipped" = some (Nat.repr s.skipped) ∧
      attrGet r.attrib "failures" = some (Nat.repr s.failures) ∧
      attrGet r.attrib "errors" = some (Nat.repr s.errors) ∧
      attrGet r.attrib "time" = some (floatStr s.time) ∧
      s.tests + s.skipped = countCases r ∧
      s.failures ≤ s.tests ∧ s.errors ≤ s.tests ∧
      s.time = sumTimes r := by
  obtain ⟨st1, st2, hst1, hst2, hag, hws⟩ := merge_trees_eq t rest r ws hne h
  obtain ⟨s, hs, hr⟩ := tsua_eq _ r hag
  obtain ⟨hcount, hfail, herr, htime⟩ := computeSuiteState_spec _ s hs
  obtain ⟨g1, g2, g3, g4, g5⟩ := setSuiteAttribs_gets
    (Elem.mk t.tag t.attrib t.text (st2.children ++ materializedSkips st2)).attrib s
  have hiter : r.iter "testcase" =
      (Elem.mk t.tag t.attrib t.text
        (st2.children ++ materializedSkips st2)).iter "testcase" := by
    rw [hr]
    exact iter_mk_attrib t.tag t.attrib _ t.text _ "testcase" htag
  refine ⟨s, ?_, ?_, ?_, ?_, ?_, ?_, hfail, herr, ?_⟩
  · rw [hr]; exact g1
  · rw [hr]; exact g2
  · rw [hr]; exact g3
  · rw [hr]; exact g4
  · rw [hr]; exact g5
  · rw [countCases, hiter]; exact hcount
  · rw [sumTimes, hiter]; exact htime

def exT4a : Elem :=
  Elem.mk "testsuite" [("name", "s1")] none
    [Elem.mk "testcase" [("name", "P"), ("time", "0.5")] none [],
     Elem.mk "testcase" [("name", "Q")] none [Elem.mk "skipped" [] (some "sk") []]]

def exT4b : Elem :=
  Elem.mk "testsuite" [("name", "s2")] none
    [Elem.mk "testcase" [("name", "Q"), ("time", "0.25")] none
       [Elem.mk "failure" [] (some "f") []],
     Elem.mk "testcase" [("name", "R")] none [Elem.mk "skipped" [] (some "sk") []]]

def exMerged4 : Elem := ((merge_trees [exT4a, exT4b]).getD (default, [])).1

/-- C4 witness: the specification's end-to-end scenario (P pass / Q
skipped, then Q pass / R skipped), with Q also failing, satisfies the
aggregate-consistency conclusion. -/
theorem merge_aggregate_consistency_witness :
    ∃ s : SuiteState,
      attrGet exMerged4.attrib "tests" = some (Nat.repr s.tests) ∧
      attrGet exMerged4.attrib "skipped" = some (Nat.repr s.skipped) ∧
      attrGet exMerged4.attrib "failures" = some (Nat.repr s.failures) ∧
      attrGet exMerged4.attrib "errors" = some (Nat.repr s.errors) ∧
      attrGet exMerged4.attrib "time" = some (floatStr s.time) ∧
      s.tests + s.skipped = countCases exMerged4 ∧
      s.failures ≤ s.tests ∧ s.errors ≤ s.tests ∧
      s.time = sumTimes exMerged4 :=
  merge_aggregate_consistency exT4a [exT4b] exMerged4
    ((merge_trees [exT4a, exT4b]).getD (default, [])).2
    (by decide) (by decide) (by decide)

theorem table_invariants (t : Elem) (rest : List Elem) (st1 st2 : MergeState)
    (hst1 : t.children.foldlM step1 ⟨[], [], [], []⟩ = some st1)
    (hst2 : (rest.flatMap Elem.children).foldlM step2 st1 = some st2) :
    (∀ p ∈ st2.skipped_tests, test_get_name p.2 = some p.1 ∧
      is_test_skipped p.2 = true) ∧
    (st2.skipped_tests.map Prod.fst).Nodup := by
  obtain ⟨_, _, _, h1sk, h1nd, _⟩ := foldlM_step1_spec _ _ _ hst1
  obtain ⟨_, _, h2sk, h2nd⟩ := foldlM_step2_spec _ _ _ hst2
  constructor
  · intro p hp
    rcases h2sk p hp with hin1 | ⟨_, hsk, hnm⟩
    · rcases h1sk p hin1 with hin0 | ⟨_, hsk, hnm⟩
      · exact absurd hin0 (List.not_mem_nil p)
      · exact ⟨hnm, hsk⟩
    · exact ⟨hnm, hsk⟩
  · exact h2nd (h1nd List.nodup_nil)

theorem keep1_tc (e : Elem) (ht : e.tag = "testcase") (hk : keep1 e = true) :
    is_test_skipped e = false := by
  simp [keep1, ht] at hk
  exact hk

/-- C1: Skip-override is order-independent — whenever a Case name `X`
occurs skipped (as a `testcase` child) in input `i` and completed in a
distinct input `j`, the merged output contains the completed occurrence
itself as a child, and contains no skipped `testcase` child named `X`;
this holds for every pair `i ≠ j`, in either order, whether or not either
occurrence is in the first (accumulator) suite. -/
theorem merge_skip_override_order_independent
    (ts : List Elem) (r : Elem) (ws : List String)
    (h : merge_trees ts = some (r, ws)) (X : String)
    (i j : ℕ) (hi : i < ts.length) (hj : j < ts.length) (hij : i ≠ j)
    (d : Elem) (hd : d ∈ (ts.get ⟨i, hi⟩).children)
    (hdt : d.tag = "testcase") (hds : is_test_skipped d = true)
    (hdn : test_get_name d = some X)
    (c : Elem) (hc : c ∈ (ts.get ⟨j, hj⟩).children)
    (hct : c.tag = "testcase") (hcs : is_test_skipped c = false)
    (hcn : test_get_name c = some X) :
    c ∈ r.children ∧
    ∀ e ∈ r.children, e.tag = "testcase" → test_get_name e = some X →
      is_test_skipped e = false := by
  cases ts with
  | nil => exact absurd hi (by simp)
  | cons t rest =>
    have hrest : rest ≠ [] := by
      intro hr
      subst hr
      simp only [List.length_cons, List.length_nil] at hi hj
      omega
    obtain ⟨st1, st2, hst1, hst2, hag, hws⟩ := merge_trees_eq t rest r ws hrest h
    obtain ⟨s, hs, hr⟩ := tsua_eq _ r hag
    have hrch : r.children = st2.children ++ materializedSkips st2 := by
      rw [hr]
      rfl
    obtain ⟨h1c, h1w, h1cm, h1sk, h1nd, h1hk⟩ := foldlM_step1_spec _ _ _ hst1
    obtain ⟨h2c, h2cm, h2sk, h2nd⟩ := foldlM_step2_spec _ _ _ hst2
    obtain ⟨hnames, hnodup⟩ := table_invariants t rest st1 st2 hst1 hst2
    -- the completed occurrence puts X into the completed-name list
    have hXcm : X ∈ st2.completed_tests := by
      rcases j with _ | j'
      · have hct0 : c ∈ t.children := hc
        have : X ∈ st1.completed_tests :=
          (h1cm X).mpr (Or.inr ⟨c, hct0, hct, hcs, hcn⟩)
        exact (h2cm X).mpr (Or.inl this)
      · have hjr : j' < rest.length := by
          simp only [List.length_cons] at hj
          omega
        have hcr : c ∈ (rest.get ⟨j', hjr⟩).children := hc
        have hcm2 : c ∈ rest.flatMap Elem.children :=
          List.mem_flatMap.mpr ⟨rest.get ⟨j', hjr⟩, List.get_mem rest j' hjr, hcr⟩
        exact (h2cm X).mpr (Or.inr ⟨c, hcm2, hcs, hcn⟩)
    constructor
    · -- the completed occurrence is a child of the output
      rw [hrch]
      apply List.mem_append_left
      rw [h2c]
      rcases j with _ | j'
      · apply List.mem_append_left
        rw [h1c]
        apply List.mem_append_right
        exact List.mem_filter.mpr ⟨hc, by simp [keep1, hct, hcs]⟩
      · apply List.mem_append_right
        have hjr : j' < rest.length := by
          simp only [List.length_cons] at hj
          omega
        have hcm2 : c ∈ rest.flatMap Elem.children :=
          List.mem_flatMap.mpr ⟨rest.get ⟨j', hjr⟩, List.get_mem rest j' hjr, hc⟩
        exact List.mem_filter.mpr ⟨hcm2, by simp [hcs]⟩
    · -- no skipped testcase named X survives in the output
      intro e he het hen
      rw [hrch] at he
      rcases List.mem_append.mp he with he2 | hemat
      · rw [h2c] at he2
        rcases List.mem_append.mp he2 with he1 | hef
        · rw [h1c] at he1
          rcases List.mem_append.mp he1 with he0 | hef1
          · exact absurd he0 (List.not_mem_nil e)
          · exact keep1_tc e het (List.mem_filter.mp hef1).2
        · have := (List.mem_filter.mp hef).2
          simpa using this
      · exfalso
        rcases materializedSkips_not_completed st2 e hemat with ⟨p, hp, hpe, hpnc⟩
        have hpn := (hnames p hp).1
        rw [hpe, hen] at hpn
        have : p.1 = X := ((Option.some.injEq _ _).mp hpn).symm
        rw [this] at hpnc
        exact hpnc hXcm

def exT1a : Elem :=
  Elem.mk "testsuite" [("name", "s1")] none
    [Elem.mk "testcase" [("name", "P"), ("time", "0.5")] none [],
     Elem.mk "testcase" [("name", "Q")] none [Elem.mk "skipped" [] (some "sk") []]]

def exT1b : Elem :=
  Elem.mk "testsuite" [("name", "s2")] none
    [Elem.mk "testcase" [("name", "Q"), ("time", "0.25")] none [],
     Elem.mk "testcase" [("name", "R")] none [Elem.mk "skipped" [] (some "sk") []]]

/-- C1 witness: `Q` is skipped in the first input and completed in the
second; the merged output contains the completed `Q` element and no
skipped testcase named `Q`. -/
theorem merge_skip_override_order_independent_witness :
    Elem.mk "testcase" [("name", "Q"), ("time", "0.25")] none [] ∈
      (((merge_trees [exT1a, exT1b]).getD (default, [])).1).children ∧
    ∀ e ∈ (((merge_trees [exT1a, exT1b]).getD (default, [])).1).children,
      e.tag = "testcase" → test_get_name e = some "Q" →
      is_test_skipped e = false :=
  merge_skip_override_order_independent [exT1a, exT1b]
    ((merge_trees [exT1a, exT1b]).getD (default, [])).1
    ((merge_trees [exT1a, exT1b]).getD (default, [])).2
    (by decide) "Q" 0 1 (by decide) (by decide) (by decide)
    (Elem.mk "testcase" [("name", "Q")] none [Elem.mk "skipped" [] (some "sk") []])
    (by decide) (by decide) (by decide) (by decide)
    (Elem.mk "testcase" [("name", "Q"), ("time", "0.25")] none [])
    (by decide) (by decide) (by decide) (by decide)

/-- Total number of completed (non-skipped) direct children named `X`
across a sequence of input trees. -/
def totCompleted (ts : List Elem) (X : String) : ℕ :=
  (ts.map (fun tr => countCompl tr.children X)).sum

/-- Total number of direct children named `X` across a sequence of input
trees. -/
def totNamed (ts : List Elem) (X : String) : ℕ :=
  (ts.map (fun tr => countNamed tr.children X)).sum

theorem sum_pos_exists (l : List ℕ) (h : 0 < l.sum) : ∃ x ∈ l, 0 < x := by
  induction l with
  | nil => simp at h
  | cons x xs ih =>
    by_cases hx : 0 < x
    · exact ⟨x, List.mem_cons_self x xs, hx⟩
    · have hx0 : x = 0 := by omega
      rw [List.sum_cons, hx0, Nat.zero_add] at h
      rcases ih h with ⟨y, hy, hypos⟩
      exact ⟨y, List.mem_cons_of_mem x hy, hypos⟩

theorem two_get_le_sum (l : List ℕ) (i j : ℕ) (hi : i < l.length)
    (hj : j < l.length) (hij : i ≠ j) : l.get ⟨i, hi⟩ + l.get ⟨j, hj⟩ ≤ l.sum := by
  induction l generalizing i j with
  | nil => simp at hi
  | cons x xs ih =>
    rcases i with _ | i' <;> rcases j with _ | j'
    · exact absurd rfl hij
    · have hj' : j' < xs.length := by simpa using hj
      have hget : xs.get ⟨j', hj'⟩ ≤ xs.sum :=
        List.single_le_sum (fun y _ => Nat.zero_le y) _ (List.get_mem xs j' hj')
      show x + xs.get ⟨j', hj'⟩ ≤ x + xs.sum
      omega
    · have hi' : i' < xs.length := by simpa using hi
      have hget : xs.get ⟨i', hi'⟩ ≤ xs.sum :=
        List.single_le_sum (fun y _ => Nat.zero_le y) _ (List.get_mem xs i' hi')
      show xs.get ⟨i', hi'⟩ + x ≤ x + xs.sum
      omega
    · have hi' : i' < xs.length := by simpa using hi
      have hj' : j' < xs.length := by simpa using hj
      have hih := ih i' j' hi' hj' (by omega)
      show xs.get ⟨i', hi'⟩ + xs.get ⟨j', hj'⟩ ≤ x + xs.sum
      omega

theorem countCompl_flatMap (rest : List Elem) (X : String) :
    countCompl (rest.flatMap Elem.children) X =
      (rest.map (fun tr => countCompl tr.children X)).sum := by
  rw [countCompl, countP_flatMap_sum]
  rfl

theorem totCompleted_cons (t : Elem) (rest : List Elem) (X : String) :
    totCompleted (t :: rest) X =
      countCompl t.children X + (rest.map (fun tr => countCompl tr.children X)).sum := by
  rw [totCompleted, List.map_cons, List.sum_cons]

theorem countCompl_pos_iff (cs : List Elem) (X : String) :
    0 < countCompl cs X ↔
      ∃ c ∈ cs, is_test_skipped c = false ∧ test_get_name c = some X := by
  rw [countCompl, List.countP_pos]
  constructor
  · rintro ⟨c, hc, hpred⟩
    simp only [Bool.and_eq_true, Bool.not_eq_true', beq_iff_eq] at hpred
    exact ⟨c, hc, hpred.1, hpred.2⟩
  · rintro ⟨c, hc, hsk, hnm⟩
    exact ⟨c, hc, by simp [hsk, hnm]⟩

theorem countNamed_pos_iff (cs : List Elem) (X : String) :
    0 < countNamed cs X ↔ ∃ c ∈ cs, test_get_name c = some X := by
  rw [countNamed, List.countP_pos]
  constructor
  · rintro ⟨c, hc, hpred⟩
    simp only [beq_iff_eq] at hpred
    exact ⟨c, hc, hpred⟩
  · rintro ⟨c, hc, hnm⟩
    exact ⟨c, hc, by simp [hnm]⟩

theorem merge_count_of_completed (t : Elem) (rest : List Elem) (r : Elem)
    (ws : List String) (hrest : rest ≠ [])
    (h : merge_trees (t :: rest) = some (r, ws))
    (hWF : ∀ tr ∈ t :: rest, ∀ c ∈ tr.children, c.tag = "testcase")
    (X : String) (hcomp : 1 ≤ totCompleted (t :: rest) X) :
    countNamed r.children X = totCompleted (t :: rest) X ∧
    ∀ e ∈ r.children, test_get_name e = some X → is_test_skipped e = false := by
  obtain ⟨st1, st2, hst1, hst2, hag, hws⟩ := merge_trees_eq t rest r ws hrest h
  obtain ⟨s, hs, hr⟩ := tsua_eq _ r hag
  have hrch : r.children = st2.children ++ materializedSkips st2 := by
    rw [hr]
    rfl
  obtain ⟨h1c, h1w, h1cm, h1sk, h1nd, h1hk⟩ := foldlM_step1_spec _ _ _ hst1
  obtain ⟨h2c, h2cm, h2sk, h2nd⟩ := foldlM_step2_spec _ _ _ hst2
  obtain ⟨hnp, hnodup⟩ := table_invariants t rest st1 st2 hst1 hst2
  have hnames : ∀ p ∈ st2.skipped_tests, test_get_name p.2 = some p.1 :=
    fun p hp => (hnp p hp).1
  have hWFt : ∀ c ∈ t.children, c.tag = "testcase" :=
    hWF t (List.mem_cons_self t rest)
  -- X is in the final completed-name list
  have hXcm : X ∈ st2.completed_tests := by
    rw [totCompleted_cons] at hcomp
    by_cases hk0 : 0 < countCompl t.children X
    · rcases (countCompl_pos_iff _ _).mp hk0 with ⟨c, hc, hsk, hnm⟩
      exact (h2cm X).mpr (Or.inl ((h1cm X).mpr (Or.inr ⟨c, hc, hWFt c hc, hsk, hnm⟩)))
    · have hk2 : 0 < countCompl (rest.flatMap Elem.children) X := by
        rw [countCompl_flatMap]
        omega
      rcases (countCompl_pos_iff _ _).mp hk2 with ⟨c, hc, hsk, hnm⟩
      exact (h2cm X).mpr (Or.inr ⟨c, hc, hsk, hnm⟩)
  have hmat : countNamed (materializedSkips st2) X = 0 :=
    materializedSkips_count_zero st2 X hnames hXcm
  have hseg1 : countNamed st1.children X = countCompl t.children X := by
    rw [h1c]
    have : countNamed (List.filter keep1 t.children) X = countCompl t.children X :=
      countNamed_filter_keep1 t.children X hWFt
    simpa [countNamed] using this
  have hseg2 : countNamed st2.children X =
      countCompl t.children X + countCompl (rest.flatMap Elem.children) X := by
    rw [h2c, countNamed, List.countP_append]
    rw [countNamed] at hseg1
    rw [hseg1]
    have := countNamed_filter_not_skipped (rest.flatMap Elem.children) X
    rw [countNamed] at this
    rw [this]
  constructor
  · rw [hrch, countNamed, List.countP_append]
    rw [countNamed] at hseg2 hmat
    rw [hseg2, hmat, totCompleted_cons, countCompl_flatMap]
    omega
  · intro e he hen
    rw [hrch] at he
    rcases List.mem_append.mp he with he2 | hemat
    · rw [h2c] at he2
      rcases List.mem_append.mp he2 with he1 | hef
      · rw [h1c] at he1
        rcases List.mem_append.mp he1 with he0 | hef1
        · exact absurd he0 (List.not_mem_nil e)
        · obtain ⟨hmem, hke⟩ := List.mem_filter.mp hef1
          exact keep1_tc e (hWFt e hmem) hke
      · have := (List.mem_filter.mp hef).2
        simpa using this
    · exfalso
      have h0 : ¬0 < countNamed (materializedSkips st2) X := by omega
      exact h0 ((countNamed_pos_iff _ _).mpr ⟨e, hemat, hen⟩)

/-- C2 counterexample: the claim says every name appears in the merged
output exactly once; with `X` completed in both of two inputs it appears
twice (duplicates are preserved, not deduplicated). -/
theorem merge_name_partition_not_exactly_once :
    (merge_trees
      [Elem.mk "testsuite" [] none [Elem.mk "testcase" [("name", "X")] none []],
       Elem.mk "testsuite" [] none [Elem.mk "testcase" [("name", "X")] none []]]).map
      (fun p => countNamed p.1.children "X") = some 2 := by
  decide

/-- C2 (amended): Name-partition completeness up to duplicate completed
occurrences — for every Case name `X` appearing among the direct
(all-`testcase`) children of the inputs: if `X` is completed in at least
one input, the output contains one child named `X` per completed
occurrence (so exactly once when `X` is completed exactly once overall)
and every output child named `X` is completed; if `X` is never completed,
the output contains exactly one child named `X`, and it is skipped. -/
theorem merge_name_partition_amended (t : Elem) (rest : List Elem) (r : Elem)
    (ws : List String) (hrest : rest ≠ [])
    (h : merge_trees (t :: rest) = some (r, ws))
    (hWF : ∀ tr ∈ t :: rest, ∀ c ∈ tr.children, c.tag = "testcase")
    (X : String) (hX : 1 ≤ totNamed (t :: rest) X) :
    (1 ≤ totCompleted (t :: rest) X →
      countNamed r.children X = totCompleted (t :: rest) X ∧
      ∀ e ∈ r.children, test_get_name e = some X → is_test_skipped e = false) ∧
    (totCompleted (t :: rest) X = 0 →
      countNamed r.children X = 1 ∧
      ∀ e ∈ r.children, test_get_name e = some X → is_test_skipped e = true) := by
  refine ⟨merge_count_of_completed t rest r ws hrest h hWF X, fun h0 => ?_⟩
  obtain ⟨st1, st2, hst1, hst2, hag, hws⟩ := merge_trees_eq t rest r ws hrest h
  obtain ⟨s, hs, hr⟩ := tsua_eq _ r hag
  have hrch : r.children = st2.children ++ materializedSkips st2 := by
    rw [hr]
    rfl
  obtain ⟨h1c, h1w, h1cm, h1sk, h1nd, h1hk⟩ := foldlM_step1_spec _ _ _ hst1
  obtain ⟨h2c, h2cm, h2sk, h2nd⟩ := foldlM_step2_spec _ _ _ hst2
  obtain ⟨hnp, hnodup⟩ := table_invariants t rest st1 st2 hst1 hst2
  have hnames : ∀ p ∈ st2.skipped_tests, test_get_name p.2 = some p.1 :=
    fun p hp => (hnp p hp).1
  have hskips : ∀ p ∈ st2.skipped_tests, is_test_skipped p.2 = true :=
    fun p hp => (hnp p hp).2
  have hWFt : ∀ c ∈ t.children, c.tag = "testcase" :=
    hWF t (List.mem_cons_self t rest)
  rw [totCompleted_cons] at h0
  have hk0 : countCompl t.children X = 0 := by omega
  have hk2sum : (rest.map (fun tr => countCompl tr.children X)).sum = 0 := by omega
  have hk2 : countCompl (rest.flatMap Elem.children) X = 0 := by
    rw [countCompl_flatMap]
    exact hk2sum
  -- X is never completed, so it never enters the completed-name list
  have hX1 : X ∉ st1.completed_tests := by
    intro hmem
    rcases (h1cm X).mp hmem with h00 | ⟨c, hc, _, hsk, hnm⟩
    · exact absurd h00 (List.not_mem_nil X)
    · have : 0 < countCompl t.children X :=
        (countCompl_pos_iff _ _).mpr ⟨c, hc, hsk, hnm⟩
      omega
  have hX2 : X ∉ st2.completed_tests := by
    intro hmem
    rcases (h2cm X).mp hmem with h00 | ⟨c, hc, hsk, hnm⟩
    · exact hX1 h00
    · have : 0 < countCompl (rest.flatMap Elem.children) X :=
        (countCompl_pos_iff _ _).mpr ⟨c, hc, hsk, hnm⟩
      omega
  -- X's first skipped occurrence survives in the skip table
  have hkey : hasKey st2.skipped_tests X = true := by
    rw [totNamed, List.map_cons, List.sum_cons] at hX
    by_cases hn0 : 0 < countNamed t.children X
    · rcases (countNamed_pos_iff _ _).mp hn0 with ⟨c, hc, hnm⟩
      have hsk : is_test_skipped c = true := by
        cases hsk : is_test_skipped c with
        | true => rfl
        | false =>
          have : 0 < countCompl t.children X :=
            (countCompl_pos_iff _ _).mpr ⟨c, hc, hsk, hnm⟩
          omega
      have hkey1 : hasKey st1.skipped_tests X = true :=
        h1hk X (Or.inr ⟨c, hc, hWFt c hc, hsk, hnm⟩)
      exact foldlM_step2_haskey _ st1 st2 hst2 X hk2 hX1 (Or.inl hkey1)
    · have hsum : 0 < (rest.map (fun tr => countNamed tr.children X)).sum := by omega
      rcases sum_pos_exists _ hsum with ⟨x, hx, hxpos⟩
      rcases List.mem_map.mp hx with ⟨tr, htr, hxeq⟩
      rw [← hxeq] at hxpos
      rcases (countNamed_pos_iff _ _).mp hxpos with ⟨c, hc, hnm⟩
      have hcf : c ∈ rest.flatMap Elem.children :=
        List.mem_flatMap.mpr ⟨tr, htr, hc⟩
      have hsk : is_test_skipped c = true := by
        cases hsk : is_test_skipped c with
        | true => rfl
        | false =>
          have : 0 < countCompl (rest.flatMap Elem.children) X :=
            (countCompl_pos_iff _ _).mpr ⟨c, hcf, hsk, hnm⟩
          omega
      exact foldlM_step2_haskey _ st1 st2 hst2 X hk2 hX1
        (Or.inr ⟨c, hcf, hsk, hnm⟩)
  have hmat1 : countNamed (materializedSkips st2) X = 1 :=
    materializedSkips_count_one st2 X hnames hnodup hX2 hkey
  have hseg1 : countNamed st1.children X = 0 := by
    rw [h1c]
    have := countNamed_filter_keep1 t.children X hWFt
    simpa [countNamed, hk0] using this
  have hseg2 : countNamed st2.children X = 0 := by
    rw [h2c, countNamed, List.countP_append]
    rw [countNamed] at hseg1
    rw [hseg1]
    have := countNamed_filter_not_skipped (rest.flatMap Elem.children) X
    rw [countNamed] at this
    rw [this, hk2]
  constructor
  · rw [hrch, countNamed, List.countP_append]
    rw [countNamed] at hseg2 hmat1
    rw [hseg2, hmat1]
  · intro e he hen
    rw [hrch] at he
    rcases List.mem_append.mp he with he2 | hemat
    · exfalso
      have : 0 < countNamed st2.children X :=
        (countNamed_pos_iff _ _).mpr ⟨e, he2, hen⟩
      omega
    · exact materializedSkips_skipped st2 hskips e hemat

def exT2a : Elem :=
  Elem.mk "testsuite" [("name", "s1")] none
    [Elem.mk "testcase" [("name", "P"), ("time", "0.5")] none [],
     Elem.mk "testcase" [("name", "Q")] none [Elem.mk "skipped" [] (some "sk") []]]

def exT2b : Elem :=
  Elem.mk "testsuite" [("name", "s2")] none
    [Elem.mk "testcase" [("name", "Q"), ("time", "0.25")] none [],
     Elem.mk "testcase" [("name", "R")] none [Elem.mk "skipped" [] (some "sk") []]]

/-- C2 witness: in the specification's end-to-end scenario, `Q` (skipped
once, completed once) satisfies both branches of the amended partition
property at a concrete merge. -/
theorem merge_name_partition_amended_witness :
    (1 ≤ totCompleted [exT2a, exT2b] "Q" →
      countNamed (((merge_trees [exT2a, exT2b]).getD (default, [])).1).children "Q" =
        totCompleted [exT2a, exT2b] "Q" ∧
      ∀ e ∈ (((merge_trees [exT2a, exT2b]).getD (default, [])).1).children,
        test_get_name e = some "Q" → is_test_skipped e = false) ∧
    (totCompleted [exT2a, exT2b] "Q" = 0 →
      countNamed (((merge_trees [exT2a, exT2b]).getD (default, [])).1).children "Q" = 1 ∧
      ∀ e ∈ (((merge_trees [exT2a, exT2b]).getD (default, [])).1).children,
        test_get_name e = some "Q" → is_test_skipped e = true) :=
  merge_name_partition_amended exT2a [exT2b]
    ((merge_trees [exT2a, exT2b]).getD (default, [])).1
    ((merge_trees [exT2a, exT2b]).getD (default, [])).2
    (by decide) (by decide) (by decide) "Q" (by decide)

/-- C7 counterexample: `X` is completed twice in the first input and once
in the second — three completed occurrences spread over two inputs.  All
three are preserved in the output, but only one duplicate warning is
printed, not one per occurrence beyond the first: duplicates within the
first (accumulator) input never trigger a warning. -/
theorem merge_duplicate_warning_count_cex :
    (merge_trees
      [Elem.mk "testsuite" [] none
        [Elem.mk "testcase" [("name", "X")] none [],
         Elem.mk "testcase" [("name", "X")] none []],
       Elem.mk "testsuite" [] none
        [Elem.mk "testcase" [("name", "X")] none []]]).map
      (fun p => (countNamed p.1.children "X", p.2)) = some (3, ["X"]) := by
  decide
/-- C7 (amended): Duplicate preservation — if `X` occurs completed in two
distinct inputs, and the first (accumulator) input contains at most one
completed occurrence of `X`, then every completed occurrence appears in
the output (the count of children named `X` equals the total number of
completed occurrences, at least two), and exactly one duplicate-name
warning is printed per occurrence beyond the first, i.e. total − 1
warnings naming `X`, while the merge completes.  (Extra completed
occurrences inside the first input are also preserved, but trigger no
warning — the counterexample; duplicates inside later inputs warn
normally and need no restriction.) -/
theorem merge_duplicate_preservation_amended (t : Elem) (rest : List Elem)
    (r : Elem) (ws : List String) (hrest : rest ≠ [])
    (h : merge_trees (t :: rest) = some (r, ws))
    (hWF : ∀ tr ∈ t :: rest, ∀ c ∈ tr.children, c.tag = "testcase")
    (X : String) (i j : ℕ) (hi : i < (t :: rest).length)
    (hj : j < (t :: rest).length) (hij : i ≠ j)
    (hoi : 1 ≤ countCompl ((t :: rest).get ⟨i, hi⟩).children X)
    (hoj : 1 ≤ countCompl ((t :: rest).get ⟨j, hj⟩).children X)
    (hcap : countCompl t.children X ≤ 1) :
    2 ≤ totCompleted (t :: rest) X ∧
    countNamed r.children X = totCompleted (t :: rest) X ∧
    (∀ e ∈ r.children, test_get_name e = some X → is_test_skipped e = false) ∧
    List.count X ws = totCompleted (t :: rest) X - 1 := by
  have htot2 : 2 ≤ totCompleted (t :: rest) X := by
    have hmap : ∀ (k : ℕ) (hk : k < (t :: rest).length),
        ((t :: rest).map (fun tr => countCompl tr.children X)).get
          ⟨k, by simpa using hk⟩ = countCompl ((t :: rest).get ⟨k, hk⟩).children X := by
      intro k hk
      simp only [List.get_eq_getElem, List.getElem_map]
    have h2 := two_get_le_sum ((t :: rest).map (fun tr => countCompl tr.children X))
      i j (by simpa using hi) (by simpa using hj) hij
    rw [hmap i hi, hmap j hj] at h2
    rw [totCompleted]
    omega
  obtain ⟨hcount, hallc⟩ := merge_count_of_completed t rest r ws hrest h hWF X
    (by omega)
  refine ⟨htot2, hcount, hallc, ?_⟩
  obtain ⟨st1, st2, hst1, hst2, hag, hws⟩ := merge_trees_eq t rest r ws hrest h
  obtain ⟨h1c, h1w, h1cm, h1sk, h1nd, h1hk⟩ := foldlM_step1_spec _ _ _ hst1
  have hwarn := foldlM_step2_warnings _ st1 st2 hst2 X
  have hw1 : List.count X st1.warnings = 0 := by
    rw [h1w]
    rfl
  have hk2 : countCompl (rest.flatMap Elem.children) X =
      (rest.map (fun tr => countCompl tr.children X)).sum := countCompl_flatMap rest X
  have hWFt : ∀ c ∈ t.children, c.tag = "testcase" :=
    hWF t (List.mem_cons_self t rest)
  have hmem_iff : X ∈ st1.completed_tests ↔ 0 < countCompl t.children X := by
    rw [h1cm X]
    constructor
    · rintro (h00 | ⟨c, hc, _, hsk, hnm⟩)
      · exact absurd h00 (List.not_mem_nil X)
      · exact (countCompl_pos_iff _ _).mpr ⟨c, hc, hsk, hnm⟩
    · intro hpos
      rcases (countCompl_pos_iff _ _).mp hpos with ⟨c, hc, hsk, hnm⟩
      exact Or.inr ⟨c, hc, hWFt c hc, hsk, hnm⟩
  rw [hws, hwarn, hw1, totCompleted_cons]
  by_cases hk0 : 0 < countCompl t.children X
  · rw [if_pos (hmem_iff.mpr hk0)]
    -- X completed exactly once in the accumulator: all later occurrences warn
    omega
  · rw [if_neg (fun hh => hk0 (hmem_iff.mp hh))]
    -- X not completed in the accumulator: the first later occurrence
    -- registers silently, the rest warn
    omega

def exT7a : Elem :=
  Elem.mk "testsuite" [] none
    [Elem.mk "testcase" [("name", "X"), ("time", "1")] none []]

def exT7b : Elem :=
  Elem.mk "testsuite" [] none
    [Elem.mk "testcase" [("name", "X"), ("time", "2")] none [],
     Elem.mk "testcase" [("name", "X"), ("time", "3")] none []]

set_option maxHeartbeats 2000000 in
set_option synthInstance.maxHeartbeats 400000 in
/-- C7 witness: `X` completed once in the first input and twice in the
second (a duplicate inside a later input) — all three occurrences are
preserved and exactly two duplicate warnings name `X`. -/
theorem merge_duplicate_preservation_amended_witness :
    2 ≤ totCompleted [exT7a, exT7b] "X" ∧
    countNamed (((merge_trees [exT7a, exT7b]).getD (default, [])).1).children "X" =
      totCompleted [exT7a, exT7b] "X" ∧
    (∀ e ∈ (((merge_trees [exT7a, exT7b]).getD (default, [])).1).children,
      test_get_name e = some "X" → is_test_skipped e = false) ∧
    List.count "X" ((merge_trees [exT7a, exT7b]).getD (default, [])).2 =
      totCompleted [exT7a, exT7b] "X" - 1 :=
  merge_duplicate_preservation_amended exT7a [exT7b]
    ((merge_trees [exT7a, exT7b]).getD (default, [])).1
    ((merge_trees [exT7a, exT7b]).getD (default, [])).2
    (by decide) (by decide) (by decide) "X" 0 1 (by decide) (by decide)
    (by decide) (by decide) (by decide) (by decide)
